import Mathlib

/-
Verification of the task/subtask tree model of the GGTDD-AI repository.

The embedding models the three pydantic classes of src/tasks
(`Task` in Task.py, `Subtask` in Subtask.py, `BaseTask` in BaseTask.py)
as Lean values, and each Python method as a function from the old value
to the new value (in-place mutation becomes functional update).
Python `int` is `Int`, `str` is `String`, `Optional[a]` is `Option a`,
`Union[int,str]` is the `PyId` sum, and a raised exception is an
`Except`/`Option` failure.  The private `_supertask` object reference is
not part of a node's value (pydantic field equality `==` ignores private
attributes); the parent chain needed for `get_root` is modelled
separately by `UpNode` below.
-/

namespace GGTDD

/-- Python `Union[int, str]` used for the `id` fields. -/
inductive PyId where
  | int (n : Int)
  | str (s : String)
deriving DecidableEq, Repr

/-- The scalar (non-child) fields of `Subtask` (src/tasks/Subtask.py lines 26-44),
in source order. -/
structure SubFields where
  name : String
  id : Option PyId := none
  index : Option Int := none
  context : Option String := none
  location_tags : List String := []
  time_tags : List String := []
  other_tags : List String := []
  estimated_minutes : Int := 0
  has_subtasks : Bool := false
  supertask_id : Option PyId := none
  supertask_type : Option String := none
deriving DecidableEq, Repr

/-- A `Subtask` value: its scalar fields plus `subtasks : Optional[List[Subtask]]`
(src/tasks/Subtask.py line 40). -/
inductive Subtask where
  | mk (fields : SubFields) (subtasks : Option (List Subtask))

def Subtask.fields : Subtask → SubFields
  | .mk f _ => f

def Subtask.subtasks : Subtask → Option (List Subtask)
  | .mk _ s => s

def Subtask.estimated_minutes (s : Subtask) : Int := s.fields.estimated_minutes

def Subtask.has_subtasks (s : Subtask) : Bool := s.fields.has_subtasks

def Subtask.name (s : Subtask) : String := s.fields.name

def Subtask.index (s : Subtask) : Option Int := s.fields.index

def Subtask.supertask_id (s : Subtask) : Option PyId := s.fields.supertask_id

def Subtask.supertask_type (s : Subtask) : Option String := s.fields.supertask_type

/-- Functional update of `estimated_minutes`. -/
def Subtask.setEst : Subtask → Int → Subtask
  | .mk f os, v => .mk { f with estimated_minutes := v } os

/-- Functional update of `index` (`subtask.index = i + 1` in the sources). -/
def Subtask.setIndex : Subtask → Int → Subtask
  | .mk f os, v => .mk { f with index := some v } os

/-- The scalar fields of `Task` (src/tasks/Task.py lines 24-31). `Task` has no
`has_subtasks` field. -/
structure TaskFields where
  name : String
  id : PyId := .int 0
  context : String := ""
  location_tags : List String := []
  time_tags : List String := []
  other_tags : List String := []
  estimated_minutes : Int := 0
deriving DecidableEq, Repr

/-- A `Task` value (src/tasks/Task.py). -/
structure Task where
  fields : TaskFields
  subtasks : List Subtask := []

/-- The scalar fields of `BaseTask` (src/tasks/BaseTask.py lines 31-43). -/
structure BaseTaskFields where
  name : String
  id : PyId := .int 0
  context : String := ""
  location_tags : List String := []
  time_tags : List String := []
  other_tags : List String := []
  estimated_minutes : Int := 0
  has_subtasks : Bool := false
  comments : List String := []
deriving DecidableEq, Repr

/-- A `BaseTask` value (src/tasks/BaseTask.py). -/
structure BaseTask where
  fields : BaseTaskFields
  subtasks : List Subtask := []

/-
Python `==` on pydantic models compares the declared fields, recursively
(`list.index` in BaseTask.py line 167 relies on it).  `pyEq` is that
comparison for `Subtask`.
-/
mutual
def pyEq : Subtask → Subtask → Bool
  | .mk f os, .mk f' os' => decide (f = f') && pyEqO os os'
def pyEqO : Option (List Subtask) → Option (List Subtask) → Bool
  | none, none => true
  | some l, some l' => pyEqL l l'
  | _, _ => false
def pyEqL : List Subtask → List Subtask → Bool
  | [], [] => true
  | a :: as, b :: bs => pyEq a b && pyEqL as bs
  | _, _ => false
end

/-- Strong induction on the size of a `Subtask` (the nested-inductive
recursor is awkward to use directly). -/
def Subtask.strongInd {P : Subtask → Prop}
    (ih : ∀ s, (∀ s', sizeOf s' < sizeOf s → P s') → P s) : ∀ s, P s :=
  fun s => ih s (fun s' _ => Subtask.strongInd ih s')
termination_by s => sizeOf s
decreasing_by assumption

theorem mem_size_lt {f : SubFields} {l : List Subtask} {s : Subtask} (h : s ∈ l) :
    sizeOf s < sizeOf (Subtask.mk f (some l)) := by
  have := List.sizeOf_lt_of_mem h
  simp only [Subtask.mk.sizeOf_spec, Option.some.sizeOf_spec]
  omega

theorem pyEqL_iff_of (l : List Subtask)
    (H : ∀ s ∈ l, ∀ b, pyEq s b = true ↔ s = b) :
    ∀ l', pyEqL l l' = true ↔ l = l' := by
  induction l with
  | nil => intro l'; cases l' <;> simp [pyEqL]
  | cons a as ihl =>
    intro l'
    cases l' with
    | nil => simp [pyEqL]
    | cons b bs =>
      simp only [pyEqL, Bool.and_eq_true]
      rw [H a (by simp) b, ihl (fun s hs b => H s (by simp [hs]) b) bs]
      constructor
      · rintro ⟨rfl, rfl⟩; rfl
      · rintro h; injection h with h1 h2; exact ⟨h1, h2⟩

/-- Field-by-field comparison of `Subtask` values coincides with equality. -/
theorem pyEq_iff : ∀ a b : Subtask, pyEq a b = true ↔ a = b := by
  refine Subtask.strongInd (fun a ihs => ?_)
  cases a with
  | mk f os =>
    intro b
    cases b with
    | mk f' os' =>
      simp only [pyEq, Bool.and_eq_true, decide_eq_true_eq]
      have hopt : pyEqO os os' = true ↔ os = os' := by
        cases os with
        | none => cases os' <;> simp [pyEqO]
        | some l =>
          cases os' with
          | none => simp [pyEqO]
          | some l' =>
            simp only [pyEqO, Option.some.injEq]
            exact pyEqL_iff_of l (fun s hs b => ihs s (mem_size_lt hs) b) l'
      rw [hopt]
      constructor
      · rintro ⟨rfl, rfl⟩; rfl
      · rintro h; injection h with h1 h2; exact ⟨h1, h2⟩

instance : DecidableEq Subtask := fun a b => decidable_of_iff _ (pyEq_iff a b)

instance : DecidableEq Task := fun a b => by
  cases a with
  | mk fa sa =>
    cases b with
    | mk fb sb =>
      exact decidable_of_iff (fa = fb ∧ sa = sb)
        ⟨fun h => by rw [h.1, h.2], fun h => by injection h with h1 h2; exact ⟨h1, h2⟩⟩

instance : DecidableEq BaseTask := fun a b => by
  cases a with
  | mk fa sa =>
    cases b with
    | mk fb sb =>
      exact decidable_of_iff (fa = fb ∧ sa = sb)
        ⟨fun h => by rw [h.1, h.2], fun h => by injection h with h1 h2; exact ⟨h1, h2⟩⟩

theorem pyEq_refl (s : Subtask) : pyEq s s = true := (pyEq_iff s s).mpr rfl

/-- Sum of the children's `estimated_minutes`
(`sum(subtask.estimated_minutes for subtask in ...)`). -/
def sumEst (l : List Subtask) : Int := (l.map (fun s => s.fields.estimated_minutes)).sum

/-
Tree operations, translated method by method.
-/

/-- `Subtask.set_supertask` (src/tasks/Subtask.py lines 52-61): stores the
parent's `id` into `supertask_id` and the given kind into `supertask_type`.
The `_supertask` object reference it also stores is a private attribute,
outside the value model (see `UpNode` for the parent chain). -/
def Subtask.set_supertask (s : Subtask) (parentId : Option PyId) (ty : String) : Subtask :=
  .mk { s.fields with supertask_id := parentId, supertask_type := some ty } s.subtasks

/-- `Task.add_subtask` (src/tasks/Task.py lines 53-61): appends the child and
then calls `subtask.set_supertask(self, 'task')` on the appended object. -/
def Task.add_subtask (t : Task) (c : Subtask) : Task :=
  { t with subtasks := t.subtasks ++ [c.set_supertask (some t.fields.id) "task"] }

/-- `Subtask.add_subtask` (src/tasks/Subtask.py lines 70-80): creates the list
if it was `None`, sets `has_subtasks = True`, appends the child.  It does not
call `set_supertask` on the child. -/
def Subtask.add_subtask (p : Subtask) (c : Subtask) : Subtask :=
  .mk { p.fields with has_subtasks := true } (some (p.subtasks.getD [] ++ [c]))

/-- `BaseTask.add_subtask` (src/tasks/BaseTask.py lines 45-52): only appends.
It neither touches `has_subtasks` nor the child's supertask fields. -/
def BaseTask.add_subtask (bt : BaseTask) (c : Subtask) : BaseTask :=
  { bt with subtasks := bt.subtasks ++ [c] }

/-- The loop `for i, subtask in enumerate(...): subtask.index = i + 1`,
with `k` the position of the list's head. -/
def assignIdxFrom (k : Nat) : List Subtask → List Subtask
  | [] => []
  | c :: cs => c.setIndex ((k : Int) + 1) :: assignIdxFrom (k + 1) cs

/-- `Task.set_subtask_index` (src/tasks/Task.py lines 63-68): assigns
`index = i + 1` to each direct child; no recursion. -/
def Task.set_subtask_index (t : Task) : Task :=
  { t with subtasks := assignIdxFrom 0 t.subtasks }

/-- `Subtask.set_subtasks_index` (src/tasks/Subtask.py lines 82-86): if the
list is not `None`, assigns `index = i + 1` to each direct child; no
recursion. -/
def Subtask.set_subtasks_index (s : Subtask) : Subtask :=
  match s.subtasks with
  | none => s
  | some l => .mk s.fields (some (assignIdxFrom 0 l))

/-- The loop of `BaseTask.set_subtasks_index` (src/tasks/BaseTask.py lines
58-61): assign `index = i + 1`, and on a child whose `has_subtasks` is true
call the child's own — `Subtask`'s, non-recursive — `set_subtasks_index` (the
children are typed `List[Subtask]`, so that is the method Python dispatches
to). -/
def assignIdxRecFrom (k : Nat) : List Subtask → List Subtask
  | [] => []
  | c :: cs =>
    (let c1 := c.setIndex ((k : Int) + 1)
     if c1.has_subtasks then c1.set_subtasks_index else c1) :: assignIdxRecFrom (k + 1) cs

/-- `BaseTask.set_subtasks_index` (src/tasks/BaseTask.py lines 54-61). -/
def BaseTask.set_subtasks_index (bt : BaseTask) : BaseTask :=
  { bt with subtasks := assignIdxRecFrom 0 bt.subtasks }

/-- `BaseTask.remove_subtask` (src/tasks/BaseTask.py lines 80-93): bounds
check, delete, then `self.set_subtasks_index()`. -/
def BaseTask.remove_subtask (bt : BaseTask) (i : Int) : Except String BaseTask :=
  if i < 0 ∨ i ≥ bt.subtasks.length then .error "Index out of bounds."
  else .ok (BaseTask.set_subtasks_index { bt with subtasks := bt.subtasks.eraseIdx i.toNat })

/-- `Task.remove_subtask` (src/tasks/Task.py lines 158-171): bounds check,
delete, then `self.set_subtask_index()`. -/
def Task.remove_subtask (t : Task) (i : Int) : Except String Task :=
  if i < 0 ∨ i ≥ t.subtasks.length then .error "Index out of bounds."
  else .ok (Task.set_subtask_index { t with subtasks := t.subtasks.eraseIdx i.toNat })

/-- `Subtask.remove_subtask` (src/tasks/Subtask.py lines 164-178): `IndexError`
when the list is `None` or the index is out of bounds; otherwise delete and
flat-reindex.  `has_subtasks` is not updated. -/
def Subtask.remove_subtask (s : Subtask) (i : Int) : Except String Subtask :=
  match s.subtasks with
  | none => .error "There are no subtasks to remove."
  | some l =>
    if i < 0 ∨ i ≥ l.length then .error "Index out of bounds."
    else .ok (Subtask.set_subtasks_index (.mk s.fields (some (l.eraseIdx i.toNat))))

/-- `BaseTask.update_subtask` (src/tasks/BaseTask.py lines 95-108). -/
def BaseTask.update_subtask (bt : BaseTask) (i : Int) (c : Subtask) : Except String BaseTask :=
  if i < 0 ∨ i ≥ bt.subtasks.length then .error "Index out of bounds."
  else .ok { bt with subtasks := bt.subtasks.set i.toNat c }

/-- `Subtask.update_subtask` (src/tasks/Subtask.py lines 146-162): `ValueError`
when there are no subtasks, `IndexError` out of bounds; otherwise replaces the
entry and calls `set_supertask` on the new child object. -/
def Subtask.update_subtask (s : Subtask) (i : Int) (c : Subtask) : Except String Subtask :=
  if s.has_subtasks = false ∨ s.subtasks = none then .error "This subtask has no subtasks."
  else
    match s.subtasks with
    | none => .error "This subtask has no subtasks."
    | some l =>
      if i < 0 ∨ i ≥ l.length then .error "Index out of bounds."
      else .ok (.mk s.fields (some (l.set i.toNat (c.set_supertask s.fields.id "subtask"))))

/-- `BaseTask.clear_subtasks` (src/tasks/BaseTask.py lines 120-124): clears the
list; `has_subtasks` is not updated. -/
def BaseTask.clear_subtasks (bt : BaseTask) : BaseTask := { bt with subtasks := [] }

/-- `Task.clear_subtasks` (src/tasks/Task.py lines 173-177). -/
def Task.clear_subtasks (t : Task) : Task := { t with subtasks := [] }

/-- `Subtask.clear_subtasks` (src/tasks/Subtask.py lines 180-187): when the
list is not `None`, recursively clears the children, empties the list and sets
`has_subtasks = False`; when it is `None`, does nothing. -/
def Subtask.clear_subtasks (s : Subtask) : Subtask :=
  match s.subtasks with
  | none => s
  | some _ => .mk { s.fields with has_subtasks := false } (some [])

/-
Flattening (`get_all_subtasks`).
-/
mutual
/-- `Subtask.get_all_subtasks` (src/tasks/Subtask.py lines 123-136): when
`has_subtasks` and the list is not `None`, returns a copy of the direct
children followed by each child's own flattening; otherwise the empty list. -/
def Subtask.get_all_subtasks : Subtask → List Subtask
  | .mk _ none => []
  | .mk f (some l) => if f.has_subtasks then l ++ getAllL l else []
/-- The `for subtask in self.subtasks: subtasks += subtask.get_all_subtasks()`
loop of Subtask.get_all_subtasks. -/
def getAllL : List Subtask → List Subtask
  | [] => []
  | c :: cs => c.get_all_subtasks ++ getAllL cs
end

/-- The `for` loop of `Task.get_all_subtasks` (src/tasks/Task.py lines 94-97):
append each child, then extend with the child's flattening. -/
def taskAllL : List Subtask → List Subtask
  | [] => []
  | c :: cs => c :: (c.get_all_subtasks ++ taskAllL cs)

/-- `Task.get_all_subtasks` (src/tasks/Task.py lines 87-98). -/
def Task.get_all_subtasks (t : Task) : List Subtask := taskAllL t.subtasks

/-
Duration aggregation, recursive variant (`Subtask.set_total_estimated_minutes`,
`Task.calculate_total_minutes`, `Task.update_total_minutes`).
-/
mutual
/-- `Subtask.set_total_estimated_minutes` (src/tasks/Subtask.py lines 138-144):
when `has_subtasks` and the list is not `None`, first sets this node's
`estimated_minutes` to the sum of the children's current values, then recurses
into the children (top-down: the parent is summed before the children are
updated). -/
def Subtask.set_total_estimated_minutes : Subtask → Subtask
  | .mk f none => .mk f none
  | .mk f (some l) =>
    if f.has_subtasks then
      .mk { f with estimated_minutes := sumEst l } (some (setTotL l))
    else .mk f (some l)
/-- The recursion loop of set_total_estimated_minutes over the children. -/
def setTotL : List Subtask → List Subtask
  | [] => []
  | c :: cs => c.set_total_estimated_minutes :: setTotL cs
end

/-- `Task.calculate_total_minutes` (src/tasks/Task.py lines 124-135): calls
`set_total_estimated_minutes` on each child (mutating it), then sums the
children's updated values.  Returns the total and the task with mutated
children (the task's own `estimated_minutes` is untouched). -/
def Task.calculate_total_minutes (t : Task) : Int × Task :=
  (sumEst (setTotL t.subtasks), { t with subtasks := setTotL t.subtasks })

/-- `Task.update_total_minutes` (src/tasks/Task.py lines 137-141): sets the
task's `estimated_minutes` to `calculate_total_minutes()`. -/
def Task.update_total_minutes (t : Task) : Task :=
  let r := t.calculate_total_minutes
  { r.2 with fields := { r.2.fields with estimated_minutes := r.1 } }

/-
Specification-side companions of the roll-up and of flattening, and the
well-formedness predicates the theorems use.
-/

mutual
/-- The recursive bottom-up roll-up that `BaseTask.update_estimated_minutes`
is supposed to realise on the subtree of one `Subtask`: children first, then
the flagged parent's `estimated_minutes` becomes the sum of the updated
children.  A node with `has_subtasks = False` is left untouched (together
with its whole subtree); a flagged node with `subtasks = None` is also left
untouched here (on such a node the iterative code raises instead). -/
def rollup : Subtask → Subtask
  | .mk f none => .mk f none
  | .mk f (some l) =>
    if f.has_subtasks then
      .mk { f with estimated_minutes := sumEst (rollupL l) } (some (rollupL l))
    else .mk f (some l)
def rollupL : List Subtask → List Subtask
  | [] => []
  | c :: cs => rollup c :: rollupL cs
end

mutual
/-- Pre-order flattening as the spec words it: the node's strict descendants,
each child immediately followed by that child's own descendants. -/
def preorderS : Subtask → List Subtask
  | .mk _ none => []
  | .mk _ (some l) => preorderF l
def preorderF : List Subtask → List Subtask
  | [] => []
  | c :: cs => c :: (preorderS c ++ preorderF cs)
end

mutual
/-- Spec invariant 1 on a subtree, in the strong form the traversals need:
a flagged node has `subtasks = Some l` with `l` non-empty and well-formed
children, an unflagged node has `None` or `Some []`. -/
def swfB : Subtask → Bool
  | .mk f none => !f.has_subtasks
  | .mk f (some l) => if f.has_subtasks then !l.isEmpty && swfL l else l.isEmpty
def swfL : List Subtask → Bool
  | [] => true
  | c :: cs => swfB c && swfL cs
end

/-- The same flag/children consistency for a `BaseTask` root. -/
def bwfB (bt : BaseTask) : Bool :=
  (if bt.fields.has_subtasks then !bt.subtasks.isEmpty else bt.subtasks.isEmpty)
    && swfL bt.subtasks

/-- No element of the list repeats an earlier one under the Python `==`
comparison `pyEq` (this is what `list.index` distinguishes elements by). -/
def nodupPy : List Subtask → Bool
  | [] => true
  | c :: cs => cs.all (fun x => !pyEq c x) && nodupPy cs

mutual
/-- At every node of the subtree, the children are pairwise distinct after
roll-up (`list.index` in the iterative traversal locates the updated child
among its — by then also updated — earlier siblings). -/
def distB : Subtask → Bool
  | .mk _ none => true
  | .mk _ (some l) => nodupPy (rollupL l) && distL l
def distL : List Subtask → Bool
  | [] => true
  | c :: cs => distB c && distL cs
end

/-- Pairwise distinctness of rolled-up siblings for the whole tree of a root. -/
def bdistB (bt : BaseTask) : Bool := nodupPy (rollupL bt.subtasks) && distL bt.subtasks

mutual
/-- Spec invariant 3 on a subtree: every flagged node's `estimated_minutes`
equals the sum of its direct children's. -/
def sumOkS : Subtask → Bool
  | .mk _ none => true
  | .mk f (some l) =>
    (if f.has_subtasks then decide (f.estimated_minutes = sumEst l) else true) && sumOkL l
def sumOkL : List Subtask → Bool
  | [] => true
  | c :: cs => sumOkS c && sumOkL cs
end

/-- Spec invariant 3 for the whole tree of a `BaseTask` root. -/
def bsumOk (bt : BaseTask) : Bool :=
  (if bt.fields.has_subtasks then decide (bt.fields.estimated_minutes = sumEst bt.subtasks)
   else true) && sumOkL bt.subtasks

mutual
/-- The leaf (unflagged) nodes of a subtree, as whole values, left to right. -/
def leafValsS : Subtask → List Subtask
  | .mk f none => [.mk f none]
  | .mk f (some l) => if f.has_subtasks then leafValsL l else [.mk f (some l)]
def leafValsL : List Subtask → List Subtask
  | [] => []
  | c :: cs => leafValsS c ++ leafValsL cs
end

/-
The iterative post-order traversal of `BaseTask.update_estimated_minutes`
(src/tasks/BaseTask.py lines 133-174).

The Python loop walks over live objects; the model addresses a node by its
path (list of child positions) from the root.  This is faithful because a
tree built of distinct objects is exactly a tree of paths: the `visited` set
of `id(...)` values becomes a list of paths, the stack of object references
becomes a list of paths (head = Python `stack[-1]`), and in-place mutation
of `estimated_minutes` becomes a functional update at a path.  The one place
the Python code compares objects by `==` rather than identity —
`parent.subtasks.index(current)` on line 167 — is modelled by `List.findIdx`
with `pyEq`, scanning the parent's current children for the first value-equal
match, exactly as `list.index` does.
-/

/-- A node's position: the list of child indices from the root (`[]` = root). -/
abbrev Path := List Nat

/-- Python truthiness of a `subtasks` attribute (`if current.subtasks:`):
true only for a non-empty list. -/
def listTruthy : Option (List Subtask) → Bool
  | some (_ :: _) => true
  | _ => false

/-- The node of a subtree at a path. -/
def Subtask.getAt : Subtask → Path → Option Subtask
  | s, [] => some s
  | .mk _ none, _ :: _ => none
  | .mk _ (some l), j :: p =>
    match l.get? j with
    | none => none
    | some c => c.getAt p

/-- The node of a forest (a root's children list) at a non-empty path. -/
def forestGet (l : List Subtask) : Path → Option Subtask
  | [] => none
  | j :: p =>
    match l.get? j with
    | none => none
    | some c => c.getAt p

/-- Update the node of a subtree at a path (identity on a missing path). -/
def Subtask.modAt : Subtask → Path → (Subtask → Subtask) → Subtask
  | s, [], g => g s
  | .mk fl none, _ :: _, _ => .mk fl none
  | .mk fl (some l), j :: p, g => .mk fl (some (l.modify (fun c => c.modAt p g) j))

/-- Update the node of a forest at a non-empty path. -/
def forestMod (l : List Subtask) : Path → (Subtask → Subtask) → List Subtask
  | [], _ => l
  | j :: p, g => l.modify (fun c => c.modAt p g) j

/-- `has_subtasks` of the node of a tree at a path (`[]` = the root itself). -/
def BaseTask.hasAt (bt : BaseTask) : Path → Option Bool
  | [] => some bt.fields.has_subtasks
  | j :: p => (forestGet bt.subtasks (j :: p)).map (fun s => s.fields.has_subtasks)

/-- The `subtasks` attribute of the node at a path.  The root's is a plain
list; a subtask's is optional. -/
def BaseTask.subsAt (bt : BaseTask) : Path → Option (Option (List Subtask))
  | [] => some (some bt.subtasks)
  | j :: p => (forestGet bt.subtasks (j :: p)).map (fun s => s.subtasks)

/-- In-place write of `estimated_minutes` at a path. -/
def BaseTask.setEstAt (bt : BaseTask) : Path → Int → BaseTask
  | [], v => { bt with fields := { bt.fields with estimated_minutes := v } }
  | j :: p, v => { bt with subtasks := forestMod bt.subtasks (j :: p) (fun s => s.setEst v) }

/-- Replace the children list of the node at a path. -/
def Subtask.setSubs : Subtask → List Subtask → Subtask
  | .mk f _, L => .mk f (some L)

/-- The tree with the node at `q` carrying children `L` instead. -/
def BaseTask.withSubsAt (bt : BaseTask) : Path → List Subtask → BaseTask
  | [], L => { bt with subtasks := L }
  | j :: p, L => { bt with subtasks := forestMod bt.subtasks (j :: p) (fun s => s.setSubs L) }

/-- The state of the `while True` loop of BaseTask.py lines 143-172:
the tree (all mutations applied), `current`, the stack (head = top), the
visited set, and — as pure instrumentation — the completion trace: one path
per loop iteration that reaches line 158 (does not `continue`). -/
structure LoopState where
  root : BaseTask
  cur : Path
  stack : List Path
  visited : List Path
  trace : List Path
deriving DecidableEq

/-- Outcome of one iteration of the loop body. -/
inductive StepRes where
  | next (st : LoopState)
  | done (st : LoopState)
  | crash
deriving DecidableEq

/-- Lines 162-172 of BaseTask.py: `if not stack: break`, otherwise find
`current` among the top's children by `==`, move to the next sibling or pop.
A `current` that is not in the list is Python's `ValueError` (`crash`), a
parent whose `subtasks` is `None` is a `TypeError`. -/
def contStep (root : BaseTask) (stack1 visited1 trace1 : List Path) (cur : Path) : StepRes :=
  match stack1 with
  | [] => .done ⟨root, cur, [], visited1, trace1⟩
  | parent :: rest =>
    match root.subsAt parent with
    | none => .crash
    | some none => .crash
    | some (some pl) =>
      match forestGet root.subtasks cur with
      | none => .crash
      | some curVal =>
        let i := pl.findIdx (fun x => pyEq x curVal)
        if i < pl.length then
          if i + 1 < pl.length then
            .next ⟨root, parent ++ [i + 1], parent :: rest, visited1, trace1⟩
          else
            .next ⟨root, parent, rest, visited1, trace1⟩
        else .crash

/-- Lines 158-172 of the loop body, reached when the iteration does not
`continue`: recompute a flagged `current`'s sum over its children (`None`
children raise), then `contStep`.  `stack1`/`visited1` are the stack and
visited set as they stand after lines 150-152 (the push, when it happened). -/
def stepComplete (st : LoopState) (hs : Bool) (osubs : Option (List Subtask))
    (stack1 visited1 : List Path) : StepRes :=
  if hs then
    match osubs with
    | none => .crash
    | some l =>
      contStep (st.root.setEstAt st.cur (sumEst l)) stack1 visited1
        (st.trace ++ [st.cur]) st.cur
  else
    contStep st.root stack1 visited1 (st.trace ++ [st.cur]) st.cur

/-- One full iteration of the loop body (lines 148-172): when `current` is
flagged and unvisited it is pushed and marked (lines 150-152), and with a
truthy `subtasks` the loop descends to the first child and `continue`s
(lines 153-155); every other iteration falls through to lines 158-172. -/
def step (st : LoopState) : StepRes :=
  match st.root.hasAt st.cur with
  | none => .crash
  | some hs =>
    match st.root.subsAt st.cur with
    | none => .crash
    | some osubs =>
      if hs = true ∧ st.cur ∉ st.visited then
        if listTruthy osubs = true then
          .next ⟨st.root, st.cur ++ [0], st.cur :: st.stack, st.cur :: st.visited, st.trace⟩
        else
          stepComplete st hs osubs (st.cur :: st.stack) (st.cur :: st.visited)
      else
        stepComplete st hs osubs st.stack st.visited

/-- Run the loop with the given amount of fuel.  `none` is a raised exception
or exhausted fuel; the loop itself has no bound, so termination statements
are `∃ fuel` statements. -/
def runLoop : Nat → LoopState → Option LoopState
  | 0, _ => none
  | n + 1, st =>
    match step st with
    | .crash => none
    | .done st' => some st'
    | .next st' => runLoop n st'

/-- `BaseTask.update_estimated_minutes` (src/tasks/BaseTask.py lines 133-174):
early return when the root is unflagged or childless (lines 139-140),
otherwise the loop from `current = self` with empty stack and visited set;
on termination the method returns `self.estimated_minutes` (line 174).
The result is the final tree, the returned value, and the completion trace. -/
def BaseTask.update_estimated_minutes (fuel : Nat) (bt : BaseTask) :
    Option (BaseTask × Int × List Path) :=
  if bt.fields.has_subtasks = false ∨ bt.subtasks = [] then
    some (bt, bt.fields.estimated_minutes, [])
  else
    (runLoop fuel ⟨bt, [], [], [], []⟩).map
      (fun st => (st.root, st.root.fields.estimated_minutes, st.trace))

/-- What the tree and the returned value must be after a successful roll-up:
the functional recursive roll-up, or the unchanged tree on the early return. -/
def BaseTask.rollupB (bt : BaseTask) : BaseTask :=
  if bt.fields.has_subtasks = true ∧ bt.subtasks ≠ [] then
    { fields := { bt.fields with estimated_minutes := sumEst (rollupL bt.subtasks) },
      subtasks := rollupL bt.subtasks }
  else bt

mutual
/-- The paths the loop pushes (chronological = pre-order: every flagged node). -/
def pushesS (p : Path) : Subtask → List Path
  | .mk f none => if f.has_subtasks then [p] else []
  | .mk f (some l) => if f.has_subtasks then p :: pushesL p 0 l else []
def pushesL (p : Path) (k : Nat) : List Subtask → List Path
  | [] => []
  | c :: cs => pushesS (p ++ [k]) c ++ pushesL p (k + 1) cs
end

mutual
/-- The completion order of the loop (post-order: every node once). -/
def postS (p : Path) : Subtask → List Path
  | .mk _ none => [p]
  | .mk f (some l) => if f.has_subtasks then postL p 0 l ++ [p] else [p]
def postL (p : Path) (k : Nat) : List Subtask → List Path
  | [] => []
  | c :: cs => postS (p ++ [k]) c ++ postL p (k + 1) cs
end

/-- The completion trace of a successful full run on a root. -/
def postPathsB (bt : BaseTask) : List Path :=
  if bt.fields.has_subtasks = true ∧ bt.subtasks ≠ [] then postL [] 0 bt.subtasks ++ [[]]
  else []

/-
The output reconstructor `SubtaskParser` (src/tasks/TaskGenerator.py lines
160-241).  The model starts after Python's `json.loads`: a JSON value is the
inductive `Json` (an object is an association list with distinct keys), and
the whole front end — code-fence extraction by the regex, `strip`, and
`json.loads` itself — is abstracted into the `Option Json` argument of
`SubtaskParser.parse`: `none` when no parseable JSON could be obtained from
the raw text (the `json.loads` exception), `some v` when it parsed to `v`.
Every exception inside the `try` block is an `Option` failure; the
`except Exception` handler of lines 237-241 turns any of them into `[]`.
-/

/-- A parsed JSON value. -/
inductive Json where
  | null
  | bool (b : Bool)
  | num (n : Int)
  | str (s : String)
  | arr (elems : List Json)
  | obj (entries : List (String × Json))

/-- `data.get(k, default)` for a `str` field: missing key gives the default,
a present non-string fails pydantic validation (an exception). -/
def getStrD (m : List (String × Json)) (k : String) (d : String) : Option String :=
  match List.lookup k m with
  | none => some d
  | some (.str s) => some s
  | some _ => none

/-- `data.get(k, default)` for an `Optional[str]` field (a present `null`
is a valid `None`). -/
def getOptStrD (m : List (String × Json)) (k : String) (d : String) : Option (Option String) :=
  match List.lookup k m with
  | none => some (some d)
  | some .null => some none
  | some (.str s) => some (some s)
  | some _ => none

/-- `data.get(k, default)` for an `int` field. -/
def getIntD (m : List (String × Json)) (k : String) (d : Int) : Option Int :=
  match List.lookup k m with
  | none => some d
  | some (.num n) => some n
  | some _ => none

/-- `data.get(k, default)` for an `Optional[int]` field. -/
def getOptIntD (m : List (String × Json)) (k : String) (d : Int) : Option (Option Int) :=
  match List.lookup k m with
  | none => some (some d)
  | some .null => some none
  | some (.num n) => some (some n)
  | some _ => none

/-- `data.get(k, default)` for an `Optional[Union[int, str]]` field. -/
def getOptIdD (m : List (String × Json)) (k : String) (d : PyId) : Option (Option PyId) :=
  match List.lookup k m with
  | none => some (some d)
  | some .null => some none
  | some (.num n) => some (some (.int n))
  | some (.str s) => some (some (.str s))
  | some _ => none

/-- A JSON array validated as `List[str]`. -/
def strListOf : List Json → Option (List String)
  | [] => some []
  | .str s :: js => (strListOf js).map (fun ss => s :: ss)
  | _ :: _ => none

/-- `data.get(k, [])` for a `List[str]` tag field. -/
def getTagsD (m : List (String × Json)) (k : String) : Option (List String) :=
  match List.lookup k m with
  | none => some []
  | some (.arr l) => strListOf l
  | some _ => none

/-- The scalar part of `SubtaskParser._create_subtask_from_dict`
(TaskGenerator.py lines 175-192): read every field with its default, build
the node with `has_subtasks := has_nested_subtasks` and `subtasks = []`. -/
def buildBase (m : List (String × Json)) (hasNested : Bool) : Option Subtask := do
  let name ← getStrD m "name" "Unnamed Subtask"
  let idv ← getOptIdD m "id" (.int 0)
  let idx ← getOptIntD m "index" 0
  let ctx ← getOptStrD m "context" ""
  let lt ← getTagsD m "location_tags"
  let tt ← getTagsD m "time_tags"
  let ot ← getTagsD m "other_tags"
  let est ← getIntD m "estimated_minutes" 0
  let sid ← getOptIdD m "supertask_id" (.int 0)
  let sty ← getOptStrD m "supertask_type" ""
  return Subtask.mk
    { name := name, id := idv, index := idx, context := ctx,
      location_tags := lt, time_tags := tt, other_tags := ot,
      estimated_minutes := est, has_subtasks := hasNested,
      supertask_id := sid, supertask_type := sty } (some [])

mutual
/-- Lines 167-173 and 195-198 of `_create_subtask_from_dict` in one pass
over the mapping's entries (a Python dict has unique keys, so scanning for
the first `subtasks` entry is `dict` access): `has_nested_subtasks` is true
when the key is present with a truthy (non-empty) list value, and then that
list's entries are built recursively.  Otherwise `(false, [])` — the
initialised `has_nested_subtasks = False`, `nested_subtasks_data = []`. -/
def findBuild : List (String × Json) → Option (Bool × List Subtask)
  | [] => some (false, [])
  | (k, v) :: tl =>
    if k = "subtasks" then
      match v with
      | .arr (x :: xs) => (createL (x :: xs)).map (fun cs => (true, cs))
      | _ => some (false, [])
    else findBuild tl
/-- `SubtaskParser._create_subtask_from_dict` (TaskGenerator.py lines
164-200): compute `has_nested_subtasks`, build the node with the defaults
(lines 175-192, `buildBase`), attach the recursively built nested nodes
through `add_subtask` (lines 195-198).  Called on a non-mapping, `data.get`
raises (`none`).  (Python builds the base before recursing; either order
gives the same `Option` value.) -/
def createSubtask : Json → Option Subtask
  | .obj m =>
    (findBuild m).bind (fun hb =>
      (buildBase m hb.1).map (fun base => hb.2.foldl Subtask.add_subtask base))
  | _ => none
/-- The `for nested_data in nested_subtasks_data` loop (lines 196-198). -/
def createL : List Json → Option (List Subtask)
  | [] => some []
  | j :: js => (createSubtask j).bind (fun s => (createL js).map (fun ss => s :: ss))
end

/-- The shape dispatch inside the `try` block of `SubtaskParser.parse`
(TaskGenerator.py lines 218-236): a mapping with a `subtasks` list gives one
node per entry; a bare list likewise; anything else one single node. -/
def parseCore : Json → Option (List Subtask)
  | .obj m =>
    match List.lookup "subtasks" m with
    | some (.arr L) => createL L
    | _ => (createSubtask (.obj m)).map (fun s => [s])
  | .arr L => createL L
  | j => (createSubtask j).map (fun s => [s])

/-- `SubtaskParser.parse` (TaskGenerator.py lines 202-241): `candidate` is
the abstracted front end (`none` = the raw text yielded no parseable JSON);
any exception inside the `try` block is caught and degraded to `[]`. -/
def SubtaskParser.parse (candidate : Option Json) : List Subtask :=
  match candidate with
  | none => []
  | some d => (parseCore d).getD []

/-
The parent chain and `get_root`.

Modelled from the spec: the spec's §4.1 `get_root(node)` — "walks non-owning
parent references upward until reaching a node with no parent (a Task Node);
fails with a `BrokenChain` condition if a parent reference is `null`/absent
before a Task Node is reached" — does not exist in src/: the only related
code is `Subtask.get_supertask` (src/tasks/Subtask.py lines 48-50), which
returns the stored `_supertask` reference (possibly `None`) without walking
or raising.  `UpNode` is a node together with its chain of `_supertask`
references (finite by spec invariant 5: the parent graph is a tree), and
`get_root` is the spec's walk over it.
-/
inductive UpNode where
  | task (t : Task)
  | sub (s : Subtask) (parent : Option UpNode)

/-- `Subtask.get_supertask` (src/tasks/Subtask.py lines 48-50) on the chain
model: the stored parent reference; a `Task` has no such attribute. -/
def UpNode.get_supertask : UpNode → Option UpNode
  | .task _ => none
  | .sub _ p => p

/-- Modelled from the spec (§4.1, §7): walk `get_supertask` upward; a `Task`
node is the root; a subtask whose reference was never set is the
broken-chain failure. -/
def get_root : UpNode → Except String Task
  | .task t => .ok t
  | .sub _ none => .error "BrokenChain"
  | .sub _ (some p) => get_root p

/-
Observation helpers and concrete exemplar inputs used by the claim theorems.
-/

mutual
/-- A subtree with every `index` field blanked, at every depth: what a node
carries apart from the positions that reindexing is allowed to rewrite. -/
def stripIdxS : Subtask → Subtask
  | .mk f none => .mk { f with index := none } none
  | .mk f (some l) => .mk { f with index := none } (some (stripIdxL l))
def stripIdxL : List Subtask → List Subtask
  | [] => []
  | c :: cs => stripIdxS c :: stripIdxL cs
end

mutual
/-- Pairwise distinctness (under Python `==`) of every sibling list of the
tree as given — the hypothesis exactly as claim C10 words it. -/
def origDistS : Subtask → Bool
  | .mk _ none => true
  | .mk _ (some l) => nodupPy l && origDistL l
def origDistL : List Subtask → Bool
  | [] => true
  | c :: cs => origDistS c && origDistL cs
end

/-- Claim C10's hypothesis for a whole tree. -/
def borigDist (bt : BaseTask) : Bool := nodupPy bt.subtasks && origDistL bt.subtasks

/-- Iterate `step` while it yields `next` (to exhibit the reachable states of
a run). -/
def iterSteps : Nat → LoopState → Option LoopState
  | 0, st => some st
  | n + 1, st =>
    match step st with
    | .next s' => iterSteps n s'
    | _ => none

/-- The roll-up call diverges on this root: no amount of fuel completes it. -/
def updDiverges (bt : BaseTask) : Prop :=
  ∀ fuel, bt.update_estimated_minutes fuel = none

/-- Shorthand scalar fields for the exemplar trees. -/
def sfx (n : String) (e : Int) (hs : Bool) : SubFields :=
  { name := n, estimated_minutes := e, has_subtasks := hs }

/-- An exemplar leaf: `has_subtasks = False`, `subtasks = None`. -/
def leafS (n : String) (e : Int) : Subtask := .mk (sfx n e false) none

/-- An exemplar internal node: `has_subtasks = True` with the given children. -/
def nodeS (n : String) (e : Int) (l : List Subtask) : Subtask := .mk (sfx n e true) (some l)

/-- Depth-3 task for claim C1's counterexample: `t → B(20) → B1(5) → B11(3)`. -/
def exT : Task :=
  { fields := { name := "t" }, subtasks := [nodeS "B" 20 [nodeS "B1" 5 [leafS "B11" 3]]] }

/-- Branching subtask for claim C2's counterexample: `A → (B1 → C1), B2`. -/
def exA : Subtask := nodeS "A" 0 [nodeS "B1" 0 [leafS "C1" 0], leafS "B2" 0]

/-- One-child subtask for claim C3's failing input. -/
def exP3 : Subtask := nodeS "p" 0 [leafS "c" 0]

/-- A parent with an id, for claim C4's counterexample. -/
def exP4 : Subtask := .mk { name := "p", id := some (.int 7) } none

/-- Depth-3 subtask for claim C6's counterexample: the grandchild holds a
stale `index = 99`. -/
def exS6 : Subtask := nodeS "s" 0 [nodeS "c" 0 [Subtask.mk { name := "d", index := some 99 } none]]

/-- Three-leaf `BaseTask` for claim C5's witness. -/
def exB5 : BaseTask :=
  { fields := { name := "t", has_subtasks := true },
    subtasks := [leafS "a" 1, leafS "b" 2, leafS "c" 4] }

/-- The parsed value of the §8 example text
`{"subtasks":[{"name":"A","estimated_minutes":10},{"name":"B","estimated_minutes":20,"subtasks":[{"name":"B1","estimated_minutes":5}]}]}`. -/
def exJson : Json := .obj [("subtasks", .arr
  [ .obj [("name", .str "A"), ("estimated_minutes", .num 10)],
    .obj [("name", .str "B"), ("estimated_minutes", .num 20),
          ("subtasks", .arr [ .obj [("name", .str "B1"), ("estimated_minutes", .num 5)] ])] ])]

/-- The node the reconstructor builds for `{"name":"A","estimated_minutes":10}`. -/
def exA8 : Subtask := .mk
  { name := "A", id := some (.int 0), index := some 0, context := some "",
    estimated_minutes := 10, has_subtasks := false,
    supertask_id := some (.int 0), supertask_type := some "" } (some [])

/-- The node built for the nested `{"name":"B1","estimated_minutes":5}`. -/
def exB18 : Subtask := .mk
  { name := "B1", id := some (.int 0), index := some 0, context := some "",
    estimated_minutes := 5, has_subtasks := false,
    supertask_id := some (.int 0), supertask_type := some "" } (some [])

/-- The node built for the `"B"` entry: flagged, with the one nested child. -/
def exB8 : Subtask := .mk
  { name := "B", id := some (.int 0), index := some 0, context := some "",
    estimated_minutes := 20, has_subtasks := true,
    supertask_id := some (.int 0), supertask_type := some "" } (some [exB18])

/-- Claim C10's counterexample tree: the two children are distinct as given
(minutes 5 vs 7) but equal after roll-up (both become `n(3) → x(3)`), so
`parent.subtasks.index(current)` finds the wrong child forever. -/
def exBad : BaseTask :=
  { fields := { name := "r", has_subtasks := true },
    subtasks := [nodeS "n" 5 [leafS "x" 3], nodeS "n" 7 [leafS "x" 3]] }

/-- The trees of the cycle the run of `exBad` falls into (both children
already recomputed to 3). -/
def exBadRolled : BaseTask :=
  { fields := { name := "r", has_subtasks := true },
    subtasks := [nodeS "n" 3 [leafS "x" 3], nodeS "n" 3 [leafS "x" 3]] }

/-- A well-formed, rolled-distinct tree for the C1/C10 witnesses:
`t(99) → B(20) → (B1(5), B2(7)); C(4)`. -/
def exGood : BaseTask :=
  { fields := { name := "t", has_subtasks := true, estimated_minutes := 99 },
    subtasks := [nodeS "B" 20 [leafS "B1" 5, leafS "B2" 7], leafS "C" 4] }

/-- The removal result for the C5 witness: `[a, c]` reindexed to 1, 2. -/
def exB5r : BaseTask :=
  { fields := { name := "t", has_subtasks := true },
    subtasks := [(leafS "a" 1).setIndex 1, (leafS "c" 4).setIndex 2] }

instance {e a : Type} [DecidableEq e] [DecidableEq a] : DecidableEq (Except e a) :=
  fun x y =>
    match x, y with
    | .ok u, .ok v =>
      if h : u = v then isTrue (by rw [h])
      else isFalse (fun hc => h (by injection hc))
    | .error u, .error v =>
      if h : u = v then isTrue (by rw [h])
      else isFalse (fun hc => h (by injection hc))
    | .ok _, .error _ => isFalse (fun hc => Except.noConfusion hc)
    | .error _, .ok _ => isFalse (fun hc => Except.noConfusion hc)

/-
Theorems.  Small facts about the helpers first, then the claims.
-/

set_option maxHeartbeats 1000000
set_option maxRecDepth 4000

theorem setIndex_subtasks (s : Subtask) (v : Int) : (s.setIndex v).subtasks = s.subtasks := by
  cases s; rfl

theorem setIndex_index (s : Subtask) (v : Int) : (s.setIndex v).index = some v := by
  cases s; rfl

theorem setIndex_has (s : Subtask) (v : Int) : (s.setIndex v).has_subtasks = s.has_subtasks := by
  cases s; rfl

theorem stripIdxS_setIndex (s : Subtask) (v : Int) : stripIdxS (s.setIndex v) = stripIdxS s := by
  cases s with
  | mk f os => cases os <;> rfl

theorem ssi_index (s : Subtask) : (Subtask.set_subtasks_index s).index = s.index := by
  cases s with
  | mk f os => cases os <;> rfl

theorem ssi_subtasks_none (s : Subtask) (h : s.subtasks = none) :
    Subtask.set_subtasks_index s = s := by
  cases s with
  | mk f os => cases os with
    | none => rfl
    | some l => simp [Subtask.subtasks] at h

theorem assignIdxFrom_strip : ∀ (l : List Subtask) (k : Nat),
    stripIdxL (assignIdxFrom k l) = stripIdxL l := by
  intro l
  induction l with
  | nil => intro k; rfl
  | cons c cs ih =>
    intro k
    simp only [assignIdxFrom, stripIdxL, stripIdxS_setIndex, ih]

theorem stripIdxS_ssi (s : Subtask) : stripIdxS (Subtask.set_subtasks_index s) = stripIdxS s := by
  cases s with
  | mk f os =>
    cases os with
    | none => rfl
    | some l =>
      show stripIdxS (.mk f (some (assignIdxFrom 0 l))) = _
      simp only [stripIdxS, assignIdxFrom_strip]

theorem assignIdxFrom_map_index : ∀ (l : List Subtask) (k : Nat),
    (assignIdxFrom k l).map Subtask.index
      = (List.range' (k + 1) l.length).map (fun j => some ((j : Nat) : Int)) := by
  intro l
  induction l with
  | nil => intro k; rfl
  | cons c cs ih =>
    intro k
    simp only [assignIdxFrom, List.map_cons, setIndex_index, List.length_cons,
      List.range'_succ, ih]
    norm_cast

theorem assignIdxRecFrom_strip : ∀ (l : List Subtask) (k : Nat),
    stripIdxL (assignIdxRecFrom k l) = stripIdxL l := by
  intro l
  induction l with
  | nil => intro k; rfl
  | cons c cs ih =>
    intro k
    simp only [assignIdxRecFrom, stripIdxL, ih]
    congr 1
    by_cases h : (c.setIndex ((k : Int) + 1)).has_subtasks = true
    · rw [if_pos h, stripIdxS_ssi, stripIdxS_setIndex]
    · rw [if_neg h, stripIdxS_setIndex]

theorem assignIdxRecFrom_map_index : ∀ (l : List Subtask) (k : Nat),
    (assignIdxRecFrom k l).map Subtask.index
      = (List.range' (k + 1) l.length).map (fun j => some ((j : Nat) : Int)) := by
  intro l
  induction l with
  | nil => intro k; rfl
  | cons c cs ih =>
    intro k
    simp only [assignIdxRecFrom, List.map_cons, List.length_cons, List.range'_succ, ih]
    congr 1
    by_cases h : (c.setIndex ((k : Int) + 1)).has_subtasks = true
    · rw [if_pos h, ssi_index, setIndex_index]
      norm_cast
    · rw [if_neg h, setIndex_index]
      norm_cast

/-- Claim C1, counterexample: on the depth-3 tree `t → B(20) → B1(5) → B11(3)`
the `Task.update_total_minutes` / `Subtask.set_total_estimated_minutes` path
leaves the internal node `B` with `estimated_minutes = 5` (its child's stale
value) while the sum of `B`'s direct children is 3 — so this path is not
equivalent to a bottom-up roll-up and the claimed invariant fails after the
call. -/
theorem C1_task_path_cx :
    (Task.update_total_minutes exT).subtasks.map
        (fun s => (s.has_subtasks, s.estimated_minutes, sumEst (s.subtasks.getD [])))
      = [(true, 5, 3)] ∧ (5 : Int) ≠ 3 := by decide

/-- Claim C2, counterexample: on `A → (B1 → C1), B2` the flattening
`Subtask.get_all_subtasks` returns `[B1, B2, C1]` — all direct children
first, then their descendants — not the pre-order `[B1, C1, B2]` in which
each child is immediately followed by its own descendants. -/
theorem C2_not_preorder_cx :
    Subtask.get_all_subtasks exA ≠ preorderS exA ∧
    (Subtask.get_all_subtasks exA).map Subtask.name = ["B1", "B2", "C1"] ∧
    (preorderS exA).map Subtask.name = ["B1", "C1", "B2"] := by decide

/-- Claim C3: removing the only child of a subtask leaves
`has_subtasks = True` next to an empty `subtasks` list —
`Subtask.remove_subtask` never resets the flag, so the invariant
`has_subtasks == (len(subtasks) > 0)` breaks on the documented meaning of the
field (and on what `clear_subtasks` maintains). -/
theorem C3_remove_last_eval :
    (Subtask.remove_subtask exP3 0).map (fun r => (r.has_subtasks, r.subtasks))
      = .ok (true, some []) := by decide

/-- Claim C4, counterexample: `Subtask.add_subtask` appends the child
unchanged — the child's `supertask_type` stays `None` instead of becoming
`"subtask"`, so the add operation does not establish the supertask link. -/
theorem C4_no_supertask_cx :
    ((Subtask.add_subtask exP4 (leafS "c" 0)).subtasks.getD []).map Subtask.supertask_type
      = [none] ∧ (none : Option String) ≠ some "subtask" := by decide

/-- Claim C4 as amended: the three `add_subtask` methods differ.
`Task.add_subtask` appends the child and sets its supertask fields from the
task; `Subtask.add_subtask` sets `has_subtasks = True` and appends the child
untouched (no supertask link); `BaseTask.add_subtask` only appends (neither
flag nor link).  None of them renumbers indices: the parent's other state and
the existing children are unchanged and the appended child keeps its `index`. -/
theorem C4_add_subtask_amended : ∀ (t : Task) (p c : Subtask) (bt : BaseTask),
    (Task.add_subtask t c).fields = t.fields ∧
    (Task.add_subtask t c).subtasks = t.subtasks ++ [c.set_supertask (some t.fields.id) "task"] ∧
    (c.set_supertask (some t.fields.id) "task").supertask_id = some t.fields.id ∧
    (c.set_supertask (some t.fields.id) "task").supertask_type = some "task" ∧
    (c.set_supertask (some t.fields.id) "task").index = c.index ∧
    (Subtask.add_subtask p c).has_subtasks = true ∧
    (Subtask.add_subtask p c).subtasks = some (p.subtasks.getD [] ++ [c]) ∧
    (Subtask.add_subtask p c).index = p.index ∧
    ((Subtask.add_subtask p c).subtasks.getD []).map Subtask.supertask_type
      = (p.subtasks.getD []).map Subtask.supertask_type ++ [c.supertask_type] ∧
    (BaseTask.add_subtask bt c).fields = bt.fields ∧
    (BaseTask.add_subtask bt c).subtasks = bt.subtasks ++ [c] := by
  intro t p c bt
  cases c with
  | mk cf cos =>
    refine ⟨rfl, rfl, rfl, rfl, rfl, ?_, ?_, ?_, ?_, rfl, rfl⟩
    · cases p with
      | mk pf pos => rfl
    · cases p with
      | mk pf pos => rfl
    · cases p with
      | mk pf pos => rfl
    · cases p with
      | mk pf pos => simp [Subtask.add_subtask, Subtask.subtasks]

/-- Claim C6, counterexample: `Subtask.set_subtasks_index` does not recurse —
after the call on `s → c → d(index 99)` the child gets index 1 but the
grandchild keeps its stale index 99, so not every sibling list of the subtree
carries `1..len`. -/
theorem C6_no_recursion_cx :
    ((Subtask.set_subtasks_index exS6).subtasks.getD []).map
        (fun ch => (ch.index, (ch.subtasks.getD []).map Subtask.index))
      = [(some 1, [some 99])] ∧ some (99 : Int) ≠ some (1 : Int) := by decide

/-- Claim C5: on `BaseTask` and `Task`, `remove_subtask` raises the bounds
failure exactly when the index is outside `[0, len)`; otherwise it deletes
exactly the entry at that index following which the remaining direct siblings
carry indices `1..len-1` (so removing index 1 from a 3-element list leaves
indices 1 and 2) in the original relative order, everything apart from the
renumbered `index` fields unchanged. -/
theorem C5_remove_subtask : ∀ (bt : BaseTask) (t : Task) (i : Int),
    (BaseTask.remove_subtask bt i = .error "Index out of bounds."
        ↔ i < 0 ∨ i ≥ (bt.subtasks.length : Int)) ∧
    (∀ r, BaseTask.remove_subtask bt i = .ok r →
      r.fields = bt.fields ∧
      r.subtasks.map Subtask.index
        = (List.range' 1 (bt.subtasks.length - 1)).map (fun j => some ((j : Nat) : Int)) ∧
      stripIdxL r.subtasks = stripIdxL (bt.subtasks.eraseIdx i.toNat)) ∧
    (Task.remove_subtask t i = .error "Index out of bounds."
        ↔ i < 0 ∨ i ≥ (t.subtasks.length : Int)) ∧
    (∀ r, Task.remove_subtask t i = .ok r →
      r.fields = t.fields ∧
      r.subtasks.map Subtask.index
        = (List.range' 1 (t.subtasks.length - 1)).map (fun j => some ((j : Nat) : Int)) ∧
      stripIdxL r.subtasks = stripIdxL (t.subtasks.eraseIdx i.toNat)) := by
  intro bt t i
  refine ⟨?_, ?_, ?_, ?_⟩
  · unfold BaseTask.remove_subtask
    by_cases h : i < 0 ∨ i ≥ (bt.subtasks.length : Int)
    · rw [if_pos h]; simpa using h
    · rw [if_neg h]; simpa using h
  · intro r hr
    unfold BaseTask.remove_subtask at hr
    by_cases h : i < 0 ∨ i ≥ (bt.subtasks.length : Int)
    · rw [if_pos h] at hr; exact absurd hr (by simp)
    · rw [if_neg h] at hr
      injection hr with hr
      subst hr
      have hlen : (bt.subtasks.eraseIdx i.toNat).length = bt.subtasks.length - 1 := by
        rw [List.length_eraseIdx]
        rw [if_pos (by omega)]
      refine ⟨rfl, ?_, ?_⟩
      · show (assignIdxRecFrom 0 (bt.subtasks.eraseIdx i.toNat)).map Subtask.index = _
        rw [assignIdxRecFrom_map_index, hlen]
      · exact assignIdxRecFrom_strip _ 0
  · unfold Task.remove_subtask
    by_cases h : i < 0 ∨ i ≥ (t.subtasks.length : Int)
    · rw [if_pos h]; simpa using h
    · rw [if_neg h]; simpa using h
  · intro r hr
    unfold Task.remove_subtask at hr
    by_cases h : i < 0 ∨ i ≥ (t.subtasks.length : Int)
    · rw [if_pos h] at hr; exact absurd hr (by simp)
    · rw [if_neg h] at hr
      injection hr with hr
      subst hr
      have hlen : (t.subtasks.eraseIdx i.toNat).length = t.subtasks.length - 1 := by
        rw [List.length_eraseIdx]
        rw [if_pos (by omega)]
      refine ⟨rfl, ?_, ?_⟩
      · show (assignIdxFrom 0 (t.subtasks.eraseIdx i.toNat)).map Subtask.index = _
        rw [assignIdxFrom_map_index, hlen]
      · exact assignIdxFrom_strip _ 0

/-- Claim C5, witness: removing index 1 from the 3-element sibling list of
`exB5` succeeds and leaves `a, c` with indices 1 and 2. -/
theorem C5_remove_subtask_w :
    BaseTask.remove_subtask exB5 1 = .ok exB5r ∧
    exB5r.subtasks.map Subtask.index = [some 1, some 2] ∧
    stripIdxL exB5r.subtasks = stripIdxL (exB5.subtasks.eraseIdx 1) := by
  have h := (C5_remove_subtask exB5 { fields := { name := "t" } } 1).2.1 exB5r (by decide)
  exact ⟨by decide, by decide, h.2.2⟩

theorem assignIdxFrom_map_subs : ∀ (l : List Subtask) (k : Nat),
    (assignIdxFrom k l).map Subtask.subtasks = l.map Subtask.subtasks := by
  intro l
  induction l with
  | nil => intro k; rfl
  | cons c cs ih => intro k; simp only [assignIdxFrom, List.map_cons, setIndex_subtasks, ih]

theorem assignIdxRecFrom_children_index : ∀ (l : List Subtask) (k : Nat),
    (assignIdxRecFrom k l).map (fun c => (c.subtasks.getD []).map Subtask.index)
      = l.map (fun c =>
          if c.has_subtasks then
            (List.range' 1 (c.subtasks.getD []).length).map (fun j => some ((j : Nat) : Int))
          else (c.subtasks.getD []).map Subtask.index) := by
  intro l
  induction l with
  | nil => intro k; rfl
  | cons c cs ih =>
    intro k
    simp only [assignIdxRecFrom, List.map_cons, ih]
    congr 1
    by_cases h : (c.setIndex ((k : Int) + 1)).has_subtasks = true
    · rw [if_pos h]
      rw [setIndex_has] at h
      rw [if_pos h]
      cases c with
      | mk f os =>
        cases os with
        | none => rfl
        | some cl =>
          show ((assignIdxFrom 0 cl).map Subtask.index) = _
          rw [assignIdxFrom_map_index]
          rfl
    · rw [if_neg h]
      rw [setIndex_has] at h
      rw [if_neg h, setIndex_subtasks]

theorem assignIdxRecFrom_children_subs : ∀ (l : List Subtask) (k : Nat),
    (assignIdxRecFrom k l).map (fun c => (c.subtasks.getD []).map Subtask.subtasks)
      = l.map (fun c => (c.subtasks.getD []).map Subtask.subtasks) := by
  intro l
  induction l with
  | nil => intro k; rfl
  | cons c cs ih =>
    intro k
    simp only [assignIdxRecFrom, List.map_cons, ih]
    congr 1
    by_cases h : (c.setIndex ((k : Int) + 1)).has_subtasks = true
    · rw [if_pos h]
      cases c with
      | mk f os =>
        cases os with
        | none => rfl
        | some cl =>
          show ((assignIdxFrom 0 cl).map Subtask.subtasks) = _
          rw [assignIdxFrom_map_subs]
          rfl
    · rw [if_neg h, setIndex_subtasks]

/-- Claim C6 as amended: `Task.set_subtask_index` and
`Subtask.set_subtasks_index` assign `index = position + 1` to the direct
children only (everything else, including every deeper subtree, unchanged;
the `Subtask` version does nothing when the list is `None`), and
`BaseTask.set_subtasks_index` additionally makes each flagged child renumber
its own direct children — its recursion stops there, so sibling lists below
depth 2 are not renumbered and indices `1..len` hold only at the depths the
call reaches. -/
theorem C6_reindex_amended : ∀ (t : Task) (s : Subtask) (bt : BaseTask),
    (Task.set_subtask_index t).fields = t.fields ∧
    (Task.set_subtask_index t).subtasks.map Subtask.index
      = (List.range' 1 t.subtasks.length).map (fun j => some ((j : Nat) : Int)) ∧
    stripIdxL (Task.set_subtask_index t).subtasks = stripIdxL t.subtasks ∧
    (Task.set_subtask_index t).subtasks.map Subtask.subtasks
      = t.subtasks.map Subtask.subtasks ∧
    (s.subtasks = none → Subtask.set_subtasks_index s = s) ∧
    (∀ l, s.subtasks = some l →
      (Subtask.set_subtasks_index s).fields = s.fields ∧
      ∃ l', (Subtask.set_subtasks_index s).subtasks = some l' ∧
        l'.map Subtask.index
          = (List.range' 1 l.length).map (fun j => some ((j : Nat) : Int)) ∧
        stripIdxL l' = stripIdxL l ∧
        l'.map Subtask.subtasks = l.map Subtask.subtasks) ∧
    (BaseTask.set_subtasks_index bt).fields = bt.fields ∧
    (BaseTask.set_subtasks_index bt).subtasks.map Subtask.index
      = (List.range' 1 bt.subtasks.length).map (fun j => some ((j : Nat) : Int)) ∧
    stripIdxL (BaseTask.set_subtasks_index bt).subtasks = stripIdxL bt.subtasks ∧
    (BaseTask.set_subtasks_index bt).subtasks.map
        (fun c => (c.subtasks.getD []).map Subtask.index)
      = bt.subtasks.map (fun c =>
          if c.has_subtasks then
            (List.range' 1 (c.subtasks.getD []).length).map (fun j => some ((j : Nat) : Int))
          else (c.subtasks.getD []).map Subtask.index) ∧
    (BaseTask.set_subtasks_index bt).subtasks.map
        (fun c => (c.subtasks.getD []).map Subtask.subtasks)
      = bt.subtasks.map (fun c => (c.subtasks.getD []).map Subtask.subtasks) := by
  intro t s bt
  refine ⟨rfl, ?_, assignIdxFrom_strip _ 0, assignIdxFrom_map_subs _ 0, ?_, ?_, rfl, ?_,
    assignIdxRecFrom_strip _ 0, assignIdxRecFrom_children_index _ 0,
    assignIdxRecFrom_children_subs _ 0⟩
  · exact assignIdxFrom_map_index _ 0
  · exact fun h => ssi_subtasks_none s h
  · intro l hl
    cases s with
    | mk f os =>
      cases os with
      | none => simp [Subtask.subtasks] at hl
      | some l0 =>
        have : l0 = l := by simpa [Subtask.subtasks] using hl
        subst this
        refine ⟨rfl, assignIdxFrom 0 l0, rfl, assignIdxFrom_map_index _ 0, 
          assignIdxFrom_strip _ 0, assignIdxFrom_map_subs _ 0⟩
  · exact assignIdxRecFrom_map_index _ 0

/-- Claim C7: whenever no parseable JSON is obtained from the raw text (the
abstracted extraction/`json.loads` front end yields nothing), and likewise
whenever the shape-interpretation inside the `try` block raises,
`SubtaskParser.parse` returns the empty subtask list instead of propagating
a failure — the function is total over the model. -/
theorem C7_parse_degrades : ∀ c : Option Json,
    (c = none → SubtaskParser.parse c = []) ∧
    (∀ j, c = some j → parseCore j = none → SubtaskParser.parse c = []) := by
  intro c
  constructor
  · rintro rfl; rfl
  · rintro j rfl h
    simp [SubtaskParser.parse, h]

/-- Claim C7, witness: no JSON at all, and the §8 instance — text `"not json"`
parses to a JSON string, whose shape-interpretation raises inside the `try`
block; both give the empty list. -/
theorem C7_parse_degrades_w :
    SubtaskParser.parse none = [] ∧ SubtaskParser.parse (some (.str "not json")) = [] :=
  ⟨(C7_parse_degrades none).1 rfl,
   (C7_parse_degrades (some (.str "not json"))).2 (.str "not json") rfl (by decide)⟩

/-- Claim C9 (spec-modelled: src has only the single-step
`Subtask.get_supertask`; the upward walk is modelled from the spec):
`get_root` on the 3-level chain task → subtask → subtask returns the task,
and on a subtask whose parent reference was never set it raises the
broken-chain failure. -/
theorem C9_get_root_chain : ∀ (t : Task) (s1 s2 : Subtask),
    get_root (.sub s2 (some (.sub s1 (some (.task t))))) = .ok t ∧
    get_root (.sub s2 none) = .error "BrokenChain" := by
  intro t s1 s2
  exact ⟨rfl, rfl⟩

theorem getAllL_perm_of (l : List Subtask)
    (H : ∀ s ∈ l, swfB s = true → (Subtask.get_all_subtasks s).Perm (preorderS s)) :
    swfL l = true → (l ++ getAllL l).Perm (preorderF l) := by
  induction l with
  | nil => intro _; rfl
  | cons c cs ih =>
    intro hwf
    rw [swfL, Bool.and_eq_true] at hwf
    simp only [getAllL, preorderF, List.cons_append]
    refine List.Perm.cons c ?_
    have p1 : List.Perm ((cs ++ Subtask.get_all_subtasks c) ++ getAllL cs)
        ((Subtask.get_all_subtasks c ++ cs) ++ getAllL cs) :=
      (List.perm_append_comm).append_right _
    have p2 : List.Perm (Subtask.get_all_subtasks c ++ (cs ++ getAllL cs))
        (preorderS c ++ preorderF cs) :=
      List.Perm.append (H c (by simp) hwf.1)
        (ih (fun s hs => H s (by simp [hs])) hwf.2)
    rw [← List.append_assoc]
    exact (p1.trans (by rw [List.append_assoc])).trans p2

theorem getAll_perm : ∀ s : Subtask, swfB s = true →
    (Subtask.get_all_subtasks s).Perm (preorderS s) := by
  refine Subtask.strongInd (fun s ihs => ?_)
  cases s with
  | mk f os =>
    intro hwf
    cases os with
    | none => rfl
    | some l =>
      rw [swfB] at hwf
      by_cases hf : f.has_subtasks = true
      · rw [if_pos hf, Bool.and_eq_true] at hwf
        show (if f.has_subtasks then l ++ getAllL l else []).Perm (preorderF l)
        rw [if_pos hf]
        exact getAllL_perm_of l (fun s hs h => ihs s (mem_size_lt hs) h) hwf.2
      · rw [if_neg hf] at hwf
        have : l = [] := by
          cases l with
          | nil => rfl
          | cons a as => simp [List.isEmpty] at hwf
        subst this
        show (if f.has_subtasks then [] ++ getAllL [] else []).Perm (preorderF [])
        cases hb : f.has_subtasks <;> simp [preorderF, getAllL]

theorem taskAllL_perm_of (l : List Subtask)
    (H : ∀ s ∈ l, swfB s = true → (Subtask.get_all_subtasks s).Perm (preorderS s)) :
    swfL l = true → (taskAllL l).Perm (preorderF l) := by
  induction l with
  | nil => intro _; rfl
  | cons c cs ih =>
    intro hwf
    rw [swfL, Bool.and_eq_true] at hwf
    simp only [taskAllL, preorderF]
    exact List.Perm.cons c
      (List.Perm.append (H c (by simp) hwf.1) (ih (fun s hs => H s (by simp [hs])) hwf.2))

/-- Claim C2 as amended: both flattenings are pure and return exactly the
strict descendants of the root, each occurrence exactly once (a permutation
of the spec's pre-order list), and the empty list on a childless root — but
the order is not pre-order: `Subtask.get_all_subtasks` lists all direct
children first and only then each child's own flattening, and
`Task.get_all_subtasks` interleaves only at the top level, delegating to the
subtask order below.  (The flag hypothesis is spec invariant 1: a node with
children is flagged — an unflagged node's children are skipped by the
guard.) -/
theorem C2_flatten_amended : ∀ (t : Task) (s : Subtask),
    (swfL t.subtasks = true → (Task.get_all_subtasks t).Perm (preorderF t.subtasks)) ∧
    (swfB s = true → (Subtask.get_all_subtasks s).Perm (preorderS s)) ∧
    (t.subtasks = [] → Task.get_all_subtasks t = []) ∧
    ((s.subtasks = none ∨ s.subtasks = some []) → Subtask.get_all_subtasks s = []) := by
  intro t s
  refine ⟨?_, getAll_perm s, ?_, ?_⟩
  · intro h
    exact taskAllL_perm_of t.subtasks (fun s' _ h' => getAll_perm s' h') h
  · intro h
    show taskAllL t.subtasks = []
    rw [h]
    rfl
  · intro h
    cases s with
    | mk f os =>
      rcases h with h | h
      · have : os = none := by simpa [Subtask.subtasks] using h
        subst this
        rfl
      · have : os = some [] := by simpa [Subtask.subtasks] using h
        subst this
        show (if f.has_subtasks then [] ++ getAllL [] else []) = []
        cases hb : f.has_subtasks <;> simp [getAllL]

/-- Claim C2, witness: on the branching exemplar `A → (B1 → C1), B2` the
subtask flattening is a permutation of the pre-order listing (and differs
from it, see the counterexample). -/
theorem C2_flatten_amended_w :
    swfB exA = true ∧ (Subtask.get_all_subtasks exA).Perm (preorderS exA) :=
  ⟨by decide, (C2_flatten_amended { fields := { name := "t" } } exA).2.1 (by decide)⟩

theorem findBuild_cons_ne (ka : String) (va : Json) (tl : List (String × Json))
    (hk : ¬ka = "subtasks") : findBuild ((ka, va) :: tl) = findBuild tl := by
  cases va with
  | null => simp [findBuild, hk]
  | bool b => simp [findBuild, hk]
  | num n => simp [findBuild, hk]
  | str s => simp [findBuild, hk]
  | arr l => cases l <;> simp [findBuild, hk]
  | obj entries => simp [findBuild, hk]

theorem findBuild_lookup_arr : ∀ (m : List (String × Json)) (x : Json) (xs : List Json),
    List.lookup "subtasks" m = some (.arr (x :: xs)) →
    findBuild m = (createL (x :: xs)).map (fun cs => (true, cs)) := by
  intro m
  induction m with
  | nil => intro x xs h; simp [List.lookup] at h
  | cons a tl ih =>
    intro x xs h
    obtain ⟨ka, va⟩ := a
    rw [List.lookup] at h
    cases hbeq : ("subtasks" == ka) with
    | true =>
      have hk : ka = "subtasks" := (eq_of_beq hbeq).symm
      subst hk
      rw [hbeq] at h
      have h' : va = Json.arr (x :: xs) := by simpa using h
      subst h'
      rfl
    | false =>
      have hk : ¬ka = "subtasks" := by
        intro hc
        subst hc
        rw [beq_self_eq_true] at hbeq
        cases hbeq
      rw [hbeq] at h
      rw [findBuild_cons_ne ka va tl hk]
      exact ih x xs h

theorem buildBase_spec : ∀ (m : List (String × Json)) (hn : Bool) (s : Subtask),
    buildBase m hn = some s →
    s.fields.has_subtasks = hn ∧ s.subtasks = some [] ∧
    (List.lookup "name" m = none → s.fields.name = "Unnamed Subtask") ∧
    (List.lookup "estimated_minutes" m = none → s.fields.estimated_minutes = 0) := by
  intro m hn s h
  unfold buildBase at h
  cases h1 : getStrD m "name" "Unnamed Subtask" with
  | none => simp [h1] at h
  | some nm =>
  rw [h1] at h
  cases h2 : getOptIdD m "id" (.int 0) with
  | none => simp [h2] at h
  | some idv =>
  rw [h2] at h
  cases h3 : getOptIntD m "index" 0 with
  | none => simp [h3] at h
  | some idx =>
  rw [h3] at h
  cases h4 : getOptStrD m "context" "" with
  | none => simp [h4] at h
  | some ctx =>
  rw [h4] at h
  cases h5 : getTagsD m "location_tags" with
  | none => simp [h5] at h
  | some lt =>
  rw [h5] at h
  cases h6 : getTagsD m "time_tags" with
  | none => simp [h6] at h
  | some tt =>
  rw [h6] at h
  cases h7 : getTagsD m "other_tags" with
  | none => simp [h7] at h
  | some ot =>
  rw [h7] at h
  cases h8 : getIntD m "estimated_minutes" 0 with
  | none => simp [h8] at h
  | some est =>
  rw [h8] at h
  cases h9 : getOptIdD m "supertask_id" (.int 0) with
  | none => simp [h9] at h
  | some sid =>
  rw [h9] at h
  cases h10 : getOptStrD m "supertask_type" "" with
  | none => simp [h10] at h
  | some sty =>
  rw [h10] at h
  simp at h
  subst h
  refine ⟨rfl, rfl, ?_, ?_⟩
  · intro habs
    rw [getStrD, habs] at h1
    injection h1 with h1
    simp [Subtask.fields, ← h1]
  · intro habs
    rw [getIntD, habs] at h8
    injection h8 with h8
    simp [Subtask.fields, ← h8]

theorem add_subtask_fields (p c : Subtask) :
    (Subtask.add_subtask p c).fields = { p.fields with has_subtasks := true } := rfl

theorem foldl_add_name : ∀ (cs : List Subtask) (base : Subtask),
    (cs.foldl Subtask.add_subtask base).fields.name = base.fields.name := by
  intro cs
  induction cs with
  | nil => intro base; rfl
  | cons c cs ih =>
    intro base
    rw [List.foldl_cons, ih, add_subtask_fields]

theorem foldl_add_est : ∀ (cs : List Subtask) (base : Subtask),
    (cs.foldl Subtask.add_subtask base).fields.estimated_minutes
      = base.fields.estimated_minutes := by
  intro cs
  induction cs with
  | nil => intro base; rfl
  | cons c cs ih =>
    intro base
    rw [List.foldl_cons, ih, add_subtask_fields]

theorem foldl_add_has_true : ∀ (cs : List Subtask) (base : Subtask),
    base.fields.has_subtasks = true →
    (cs.foldl Subtask.add_subtask base).fields.has_subtasks = true := by
  intro cs
  induction cs with
  | nil => intro base h; exact h
  | cons c cs ih =>
    intro base _
    rw [List.foldl_cons]
    exact ih _ (by rw [add_subtask_fields])

theorem foldl_add_subtasks : ∀ (cs : List Subtask) (base : Subtask) (l : List Subtask),
    base.subtasks = some l →
    (cs.foldl Subtask.add_subtask base).subtasks = some (l ++ cs) := by
  intro cs
  induction cs with
  | nil => intro base l h; simpa using h
  | cons c cs ih =>
    intro base l h
    rw [List.foldl_cons]
    have : (Subtask.add_subtask base c).subtasks = some (l ++ [c]) := by
      cases base with
      | mk f os =>
        simp [Subtask.subtasks] at h
        subst h
        rfl
    rw [ih _ _ this, List.append_assoc]
    rfl

theorem createL_spec : ∀ (L : List Json) (cs : List Subtask), createL L = some cs →
    cs.length = L.length ∧
    ∀ k, k < L.length →
      ∃ e c, L.get? k = some e ∧ cs.get? k = some c ∧ createSubtask e = some c := by
  intro L
  induction L with
  | nil =>
    intro cs h
    rw [createL] at h
    injection h with h
    subst h
    exact ⟨rfl, fun k hk => absurd hk (by simp)⟩
  | cons j js ih =>
    intro cs h
    rw [createL] at h
    cases hj : createSubtask j with
    | none => rw [hj] at h; simp at h
    | some s =>
      rw [hj] at h
      cases hjs : createL js with
      | none => rw [hjs] at h; simp at h
      | some ss =>
        rw [hjs] at h
        simp at h
        subst h
        obtain ⟨hlen, hget⟩ := ih ss hjs
        refine ⟨by simp [hlen], ?_⟩
        intro k hk
        cases k with
        | zero => exact ⟨j, s, rfl, rfl, hj⟩
        | succ k =>
          obtain ⟨e, c, he, hc, hec⟩ := hget k (by simpa using hk)
          exact ⟨e, c, he, hc, hec⟩

/-- Claim C8: a parsed mapping with a `subtasks` list yields exactly one node
per entry (same length, position by position built by
`_create_subtask_from_dict`); node construction defaults an absent `name` to
"Unnamed Subtask" and an absent `estimated_minutes` to 0; a present non-empty
nested `subtasks` list makes the node flagged with exactly the recursively
built children attached; and the §8 example yields the two top-level
subtasks, the second carrying the one nested child. -/
theorem C8_parse_builds :
    (∀ (m : List (String × Json)) (L : List Json),
      List.lookup "subtasks" m = some (.arr L) →
      parseCore (.obj m) = createL L ∧
      ∀ cs, createL L = some cs → cs.length = L.length ∧
        ∀ k, k < L.length →
          ∃ e c, L.get? k = some e ∧ cs.get? k = some c ∧ createSubtask e = some c) ∧
    (∀ (m : List (String × Json)) (s : Subtask), createSubtask (.obj m) = some s →
      (List.lookup "name" m = none → s.fields.name = "Unnamed Subtask") ∧
      (List.lookup "estimated_minutes" m = none → s.fields.estimated_minutes = 0)) ∧
    (∀ (m : List (String × Json)) (x : Json) (xs : List Json) (s : Subtask),
      List.lookup "subtasks" m = some (.arr (x :: xs)) →
      createSubtask (.obj m) = some s →
      s.fields.has_subtasks = true ∧
      ∃ cs, createL (x :: xs) = some cs ∧ s.subtasks = some cs) ∧
    parseCore exJson = some [exA8, exB8] ∧
    exB8.subtasks = some [exB18] := by
  refine ⟨?_, ?_, ?_, by decide, by decide⟩
  · intro m L hl
    constructor
    · rw [parseCore, hl]
    · exact createL_spec L
  · intro m s h
    rw [createSubtask] at h
    cases hfb : findBuild m with
    | none => rw [hfb] at h; simp at h
    | some hb =>
      rw [hfb] at h
      obtain ⟨hn, cs⟩ := hb
      simp only [Option.some_bind] at h
      cases hbb : buildBase m hn with
      | none => rw [hbb] at h; simp at h
      | some base =>
        rw [hbb] at h
        simp at h
        subst h
        obtain ⟨_, _, hname, hest⟩ := buildBase_spec m hn base hbb
        exact ⟨fun ha => by rw [foldl_add_name, hname ha],
               fun ha => by rw [foldl_add_est, hest ha]⟩
  · intro m x xs s hl h
    rw [createSubtask, findBuild_lookup_arr m x xs hl] at h
    cases hcl : createL (x :: xs) with
    | none => rw [hcl] at h; simp at h
    | some cs =>
      rw [hcl] at h
      simp only [Option.map_some', Option.some_bind] at h
      cases hbb : buildBase m true with
      | none => rw [hbb] at h; simp at h
      | some base =>
        rw [hbb] at h
        simp at h
        subst h
        obtain ⟨hflag, hsubs, _, _⟩ := buildBase_spec m true base hbb
        exact ⟨foldl_add_has_true cs base hflag,
               cs, rfl, by rw [foldl_add_subtasks cs base [] hsubs]; rfl⟩

/-
Path algebra for the loop model: reading and modifying a tree at a path.
-/

theorem getAt_nil (s : Subtask) : s.getAt [] = some s := by
  cases s with
  | mk f os => cases os <;> rfl

theorem modAt_nil (s : Subtask) (g : Subtask → Subtask) : s.modAt [] g = g s := by
  cases s with
  | mk f os => cases os <;> rfl

theorem getAt_cons (f : SubFields) (l : List Subtask) (j : Nat) (p : Path) :
    (Subtask.mk f (some l)).getAt (j :: p) = l[j]?.bind (fun c => c.getAt p) := by
  cases h : l[j]? with
  | none => simp [Subtask.getAt, h]
  | some c => simp [Subtask.getAt, h]

theorem modAt_cons (f : SubFields) (l : List Subtask) (j : Nat) (p : Path)
    (g : Subtask → Subtask) :
    (Subtask.mk f (some l)).modAt (j :: p) g
      = Subtask.mk f (some (l.modify (fun c => c.modAt p g) j)) := rfl

theorem getAt_append : ∀ (q r : Path) (s : Subtask),
    s.getAt (q ++ r) = (s.getAt q).bind (fun x => x.getAt r) := by
  intro q
  induction q with
  | nil => intro r s; rw [getAt_nil]; rfl
  | cons j p ih =>
    intro r s
    cases s with
    | mk f os =>
      cases os with
      | none => rfl
      | some l =>
        rw [List.cons_append, getAt_cons, getAt_cons]
        cases h : l[j]? with
        | none => rfl
        | some c => simp [ih]

theorem forestGet_cons (F : List Subtask) (j : Nat) (p : Path) :
    forestGet F (j :: p) = F[j]?.bind (fun c => c.getAt p) := by
  cases h : F[j]? with
  | none => simp [forestGet, h]
  | some c => simp [forestGet, h]

theorem forestGet_append (F : List Subtask) (j : Nat) (p r : Path) :
    forestGet F ((j :: p) ++ r) = (forestGet F (j :: p)).bind (fun x => x.getAt r) := by
  rw [List.cons_append, forestGet_cons, forestGet_cons]
  cases h : F[j]? with
  | none => rfl
  | some c => simp [getAt_append]

theorem modify_cons_same {α : Type} (g1 g2 : α → α) : ∀ (l : List α) (j : Nat),
    (l.modify g1 j).modify g2 j = l.modify (fun x => g2 (g1 x)) j := by
  intro l
  induction l with
  | nil => intro j; simp [List.modify_nil]
  | cons a as ih =>
    intro j
    cases j with
    | zero => simp [List.modify_zero_cons]
    | succ j => simp [List.modify_succ_cons, ih]

theorem modify_append_cons {α : Type} (g : α → α) : ∀ (A : List α) (x : α) (B : List α),
    (A ++ x :: B).modify g A.length = A ++ g x :: B := by
  intro A
  induction A with
  | nil => intro x B; simp [List.modify_zero_cons]
  | cons a as ih =>
    intro x B
    simp [List.modify_succ_cons, ih]

theorem getAt_modAt_self : ∀ (p : Path) (s : Subtask) (g : Subtask → Subtask),
    (s.modAt p g).getAt p = (s.getAt p).map g := by
  intro p
  induction p with
  | nil => intro s g; rw [modAt_nil, getAt_nil, getAt_nil]; rfl
  | cons j p ih =>
    intro s g
    cases s with
    | mk f os =>
      cases os with
      | none => rfl
      | some l =>
        rw [modAt_cons, getAt_cons, getAt_cons, List.getElem?_modify]
        cases h : l[j]? with
        | none => rfl
        | some c => simp [ih]

theorem modAt_append : ∀ (q r : Path) (s : Subtask) (g : Subtask → Subtask),
    s.modAt (q ++ r) g = s.modAt q (fun x => x.modAt r g) := by
  intro q
  induction q with
  | nil => intro r s g; rw [modAt_nil]; rfl
  | cons j p ih =>
    intro r s g
    cases s with
    | mk f os =>
      cases os with
      | none => rfl
      | some l =>
        rw [List.cons_append, modAt_cons, modAt_cons]
        have he : (fun c : Subtask => c.modAt (p ++ r) g)
            = (fun c : Subtask => c.modAt p (fun x => x.modAt r g)) := by
          funext c
          exact ih r c g
        rw [he]

theorem modAt_modAt_same : ∀ (p : Path) (s : Subtask) (g1 g2 : Subtask → Subtask),
    (s.modAt p g1).modAt p g2 = s.modAt p (fun x => g2 (g1 x)) := by
  intro p
  induction p with
  | nil => intro s g1 g2; rw [modAt_nil, modAt_nil, modAt_nil]
  | cons j p ih =>
    intro s g1 g2
    cases s with
    | mk f os =>
      cases os with
      | none => rfl
      | some l =>
        rw [modAt_cons, modAt_cons, modAt_cons, modify_cons_same]
        have he : (fun x : Subtask => (x.modAt p g1).modAt p g2)
            = (fun x : Subtask => x.modAt p (fun y => g2 (g1 y))) := by
          funext x
          exact ih x g1 g2
        rw [he]

/-- The path addresses a real node of the tree (`[]` is the root). -/
def ValidQ (bt : BaseTask) (q : Path) : Prop :=
  q = [] ∨ (forestGet bt.subtasks q).isSome = true

theorem getElem_append_cons {α : Type} : ∀ (A : List α) (x : α) (B : List α),
    (A ++ x :: B)[A.length]? = some x := by
  intro A
  induction A with
  | nil => intro x B; simp
  | cons a as ih => intro x B; simpa using ih x B

theorem setSubs_subtasks (x : Subtask) (L : List Subtask) : (x.setSubs L).subtasks = some L := by
  cases x; rfl

theorem setSubs_fields (x : Subtask) (L : List Subtask) : (x.setSubs L).fields = x.fields := by
  cases x; rfl

theorem forestMod_cons (F : List Subtask) (j : Nat) (p : Path) (g : Subtask → Subtask) :
    forestMod F (j :: p) g = F.modify (fun c => c.modAt p g) j := rfl

theorem forestGet_forestMod_self (F : List Subtask) (j : Nat) (p : Path)
    (g : Subtask → Subtask) :
    forestGet (forestMod F (j :: p) g) (j :: p) = (forestGet F (j :: p)).map g := by
  rw [forestMod_cons, forestGet_cons, forestGet_cons, List.getElem?_modify]
  cases h : F[j]? with
  | none => rfl
  | some c => simp [getAt_modAt_self]

theorem forestMod_append (F : List Subtask) (j : Nat) (p r : Path) (g : Subtask → Subtask) :
    forestMod F ((j :: p) ++ r) g = forestMod F (j :: p) (fun y => y.modAt r g) := by
  rw [List.cons_append, forestMod_cons, forestMod_cons]
  have he : (fun c : Subtask => c.modAt (p ++ r) g)
      = (fun c : Subtask => c.modAt p (fun y => y.modAt r g)) := by
    funext c
    exact modAt_append p r c g
  rw [he]

theorem forestMod_forestMod_same (F : List Subtask) (j : Nat) (p : Path)
    (g1 g2 : Subtask → Subtask) :
    forestMod (forestMod F (j :: p) g1) (j :: p) g2
      = forestMod F (j :: p) (fun y => g2 (g1 y)) := by
  rw [forestMod_cons, forestMod_cons, forestMod_cons, modify_cons_same]
  have he : (fun x : Subtask => (x.modAt p g1).modAt p g2)
      = (fun x : Subtask => x.modAt p (fun y => g2 (g1 y))) := by
    funext x
    exact modAt_modAt_same p x g1 g2
  rw [he]

theorem withSubs_subsAt (bt : BaseTask) (q : Path) (L : List Subtask) (hv : ValidQ bt q) :
    (bt.withSubsAt q L).subsAt q = some (some L) := by
  cases q with
  | nil => rfl
  | cons j p =>
    rcases hv with hv | hv
    · cases hv
    · show ((forestGet (forestMod bt.subtasks (j :: p) (fun s => s.setSubs L)) (j :: p)).map
        Subtask.subtasks) = some (some L)
      rw [forestGet_forestMod_self]
      cases h : forestGet bt.subtasks (j :: p) with
      | none => rw [h] at hv; cases hv
      | some x => simp [h, setSubs_subtasks]

theorem withSubs_hasAt (bt : BaseTask) (q : Path) (L : List Subtask) :
    (bt.withSubsAt q L).hasAt q = bt.hasAt q := by
  cases q with
  | nil => rfl
  | cons j p =>
    show ((forestGet (forestMod bt.subtasks (j :: p) (fun s => s.setSubs L)) (j :: p)).map
        (fun s => s.fields.has_subtasks)) = _
    rw [forestGet_forestMod_self]
    cases h : forestGet bt.subtasks (j :: p) with
    | none => simp [BaseTask.hasAt, h]
    | some x => simp [BaseTask.hasAt, h, setSubs_fields]

theorem withSubs_get_inside (bt : BaseTask) (q : Path) (L : List Subtask) (j : Nat) (p : Path)
    (hv : ValidQ bt q) :
    forestGet (bt.withSubsAt q L).subtasks (q ++ j :: p) = L[j]?.bind (fun c => c.getAt p) := by
  cases q with
  | nil =>
    show forestGet L (j :: p) = _
    exact forestGet_cons L j p
  | cons q0 qs =>
    rcases hv with hv | hv
    · cases hv
    · show forestGet (forestMod bt.subtasks (q0 :: qs) (fun s => s.setSubs L))
        ((q0 :: qs) ++ j :: p) = _
      rw [forestGet_append, forestGet_forestMod_self]
      cases h : forestGet bt.subtasks (q0 :: qs) with
      | none => rw [h] at hv; cases hv
      | some x =>
        cases x with
        | mk fx osx =>
          show ((some ((Subtask.mk fx osx).setSubs L)).bind fun y => y.getAt (j :: p)) = _
          simp only [Option.some_bind]
          show (Subtask.mk fx (some L)).getAt (j :: p) = _
          exact getAt_cons fx L j p

theorem withSubs_setEst (bt : BaseTask) (q : Path) (A : List Subtask) (x : Subtask)
    (B : List Subtask) (v : Int) :
    (bt.withSubsAt q (A ++ x :: B)).setEstAt (q ++ [A.length]) v
      = bt.withSubsAt q (A ++ x.setEst v :: B) := by
  have hpt : ∀ y : Subtask, (y.setSubs (A ++ x :: B)).modAt [A.length] (fun s => s.setEst v)
      = y.setSubs (A ++ x.setEst v :: B) := by
    intro y
    cases y with
    | mk fy osy =>
      show Subtask.mk fy (some ((A ++ x :: B).modify
          (fun c => c.modAt [] (fun s => s.setEst v)) A.length)) = _
      have he : (fun c : Subtask => c.modAt [] (fun s => s.setEst v))
          = (fun c : Subtask => c.setEst v) := by
        funext c
        exact modAt_nil c _
      rw [he, modify_append_cons]
      rfl
  cases q with
  | nil =>
    show { bt with subtasks := forestMod (A ++ x :: B) [A.length] (fun s => s.setEst v) } = _
    rw [forestMod_cons]
    have he : (fun c : Subtask => c.modAt [] (fun s => s.setEst v))
        = (fun c : Subtask => c.setEst v) := by
      funext c
      exact modAt_nil c _
    rw [he, modify_append_cons]
    rfl
  | cons q0 qs =>
    show { bt with subtasks := (forestMod
        (forestMod bt.subtasks (q0 :: qs) (fun s => s.setSubs (A ++ x :: B)))
        ((q0 :: qs) ++ [A.length]) (fun s => s.setEst v)) } = _
    rw [forestMod_append, forestMod_forestMod_same]
    have he : (fun y : Subtask => (y.setSubs (A ++ x :: B)).modAt [A.length]
        (fun s => s.setEst v)) = (fun y : Subtask => y.setSubs (A ++ x.setEst v :: B)) := by
      funext y
      exact hpt y
    rw [he]
    rfl

theorem withSubs_nest (bt : BaseTask) (q : Path) (A : List Subtask) (f : SubFields)
    (M0 M B : List Subtask) :
    (bt.withSubsAt q (A ++ (Subtask.mk f (some M0)) :: B)).withSubsAt (q ++ [A.length]) M
      = bt.withSubsAt q (A ++ (Subtask.mk f (some M)) :: B) := by
  have hpt : ∀ y : Subtask, (y.setSubs (A ++ (Subtask.mk f (some M0)) :: B)).modAt [A.length]
      (fun s => s.setSubs M) = y.setSubs (A ++ (Subtask.mk f (some M)) :: B) := by
    intro y
    cases y with
    | mk fy osy =>
      show Subtask.mk fy (some ((A ++ (Subtask.mk f (some M0)) :: B).modify
          (fun c => c.modAt [] (fun s => s.setSubs M)) A.length)) = _
      have he : (fun c : Subtask => c.modAt [] (fun s => s.setSubs M))
          = (fun c : Subtask => c.setSubs M) := by
        funext c
        exact modAt_nil c _
      rw [he, modify_append_cons]
      rfl
  cases q with
  | nil =>
    show { bt with subtasks := (forestMod (A ++ (Subtask.mk f (some M0)) :: B) [A.length]
        (fun s => s.setSubs M)) } = _
    rw [forestMod_cons]
    have he : (fun c : Subtask => c.modAt [] (fun s => s.setSubs M))
        = (fun c : Subtask => c.setSubs M) := by
      funext c
      exact modAt_nil c _
    rw [he, modify_append_cons]
    rfl
  | cons q0 qs =>
    show { bt with subtasks := (forestMod
        (forestMod bt.subtasks (q0 :: qs)
          (fun s => s.setSubs (A ++ (Subtask.mk f (some M0)) :: B)))
        ((q0 :: qs) ++ [A.length]) (fun s => s.setSubs M)) } = _
    rw [forestMod_append, forestMod_forestMod_same]
    have he : (fun y : Subtask => (y.setSubs (A ++ (Subtask.mk f (some M0)) :: B)).modAt
        [A.length] (fun s => s.setSubs M))
        = (fun y : Subtask => y.setSubs (A ++ (Subtask.mk f (some M)) :: B)) := by
      funext y
      exact hpt y
    rw [he]
    rfl

theorem validQ_withSubs_child (bt : BaseTask) (q : Path) (L : List Subtask) (j : Nat)
    (c : Subtask) (hv : ValidQ bt q) (h : L[j]? = some c) :
    ValidQ (bt.withSubsAt q L) (q ++ [j]) := by
  right
  have := withSubs_get_inside bt q L j [] hv
  rw [this, h]
  simp [getAt_nil]

theorem withSubs_fields (bt : BaseTask) (q0 : Nat) (qs : Path) (L : List Subtask) :
    (bt.withSubsAt (q0 :: qs) L).fields = bt.fields := rfl

theorem withSubs_nil (bt : BaseTask) : bt.withSubsAt [] bt.subtasks = bt := rfl

/-
The five shapes one loop iteration can take in a well-formed run.
-/

theorem contStep_done (root : BaseTask) (visited1 trace1 : List Path) (cur : Path) :
    contStep root [] visited1 trace1 cur = .done ⟨root, cur, [], visited1, trace1⟩ := rfl

theorem contStep_move (root : BaseTask) (parent : Path) (rest visited1 trace1 : List Path)
    (cur : Path) (pl : List Subtask) (curVal : Subtask)
    (hp : root.subsAt parent = some (some pl))
    (hc : forestGet root.subtasks cur = some curVal)
    (i : Nat) (hfind : pl.findIdx (fun x => pyEq x curVal) = i) (hlt : i < pl.length) :
    contStep root (parent :: rest) visited1 trace1 cur
      = if i + 1 < pl.length then
          .next ⟨root, parent ++ [i + 1], parent :: rest, visited1, trace1⟩
        else .next ⟨root, parent, rest, visited1, trace1⟩ := by
  simp only [contStep, hp, hc, hfind, if_pos hlt]

theorem step_arrive (st : LoopState) (c0 : Subtask) (cs : List Subtask)
    (hhas : st.root.hasAt st.cur = some true)
    (hnv : st.cur ∉ st.visited)
    (hsubs : st.root.subsAt st.cur = some (some (c0 :: cs))) :
    step st = .next ⟨st.root, st.cur ++ [0], st.cur :: st.stack, st.cur :: st.visited,
      st.trace⟩ := by
  simp [step, stepComplete, hhas, hsubs, hnv, listTruthy]

theorem step_leaf (st : LoopState) (osubs : Option (List Subtask))
    (hhas : st.root.hasAt st.cur = some false)
    (hsubs : st.root.subsAt st.cur = some osubs) :
    step st = contStep st.root st.stack st.visited (st.trace ++ [st.cur]) st.cur := by
  simp [step, stepComplete, hhas, hsubs]

theorem step_int (st : LoopState) (l : List Subtask)
    (hhas : st.root.hasAt st.cur = some true)
    (hvis : st.cur ∈ st.visited)
    (hsubs : st.root.subsAt st.cur = some (some l)) :
    step st = contStep (st.root.setEstAt st.cur (sumEst l)) st.stack st.visited
      (st.trace ++ [st.cur]) st.cur := by
  simp [step, stepComplete, hhas, hsubs, hvis]

theorem runLoop_next (n : Nat) (st st' : LoopState) (h : step st = .next st') :
    runLoop (n + 1) st = runLoop n st' := by
  rw [runLoop, h]

theorem runLoop_done (n : Nat) (st st' : LoopState) (h : step st = .done st') :
    runLoop (n + 1) st = some st' := by
  rw [runLoop, h]

theorem findIdx_middle (A : List Subtask) (c : Subtask) (B : List Subtask)
    (hA : ∀ u ∈ A, pyEq u c = false) :
    (A ++ c :: B).findIdx (fun x => pyEq x c) = A.length := by
  induction A with
  | nil => simp [List.findIdx_cons, pyEq_refl]
  | cons a as ih =>
    rw [List.cons_append, List.findIdx_cons]
    rw [hA a (by simp)]
    simp only [cond_false, List.length_cons]
    rw [ih (fun u hu => hA u (by simp [hu]))]

/-
Facts feeding the simulation of the iterative traversal.
-/

theorem rollup_unflagged (f : SubFields) (os : Option (List Subtask))
    (h : f.has_subtasks = false) : rollup (.mk f os) = .mk f os := by
  cases os with
  | none => rfl
  | some l => simp [rollup, h]

theorem rollup_flagged (f : SubFields) (l : List Subtask) (h : f.has_subtasks = true) :
    rollup (.mk f (some l))
      = .mk { f with estimated_minutes := sumEst (rollupL l) } (some (rollupL l)) := by
  simp [rollup, h]

theorem rollupL_cons (c : Subtask) (cs : List Subtask) :
    rollupL (c :: cs) = rollup c :: rollupL cs := rfl

theorem pushesS_unflagged (p : Path) (f : SubFields) (os : Option (List Subtask))
    (h : f.has_subtasks = false) : pushesS p (.mk f os) = [] := by
  cases os with
  | none => simp [pushesS, h]
  | some l => simp [pushesS, h]

theorem pushesS_flagged (p : Path) (f : SubFields) (l : List Subtask)
    (h : f.has_subtasks = true) : pushesS p (.mk f (some l)) = p :: pushesL p 0 l := by
  simp [pushesS, h]

theorem postS_unflagged (p : Path) (f : SubFields) (os : Option (List Subtask))
    (h : f.has_subtasks = false) : postS p (.mk f os) = [p] := by
  cases os with
  | none => simp [postS]
  | some l => simp [postS, h]

theorem postS_flagged (p : Path) (f : SubFields) (l : List Subtask)
    (h : f.has_subtasks = true) : postS p (.mk f (some l)) = postL p 0 l ++ [p] := by
  simp [postS, h]

theorem nodup_before : ∀ (A : List Subtask) (x : Subtask) (B : List Subtask),
    nodupPy (A ++ x :: B) = true → ∀ u ∈ A, pyEq u x = false := by
  intro A
  induction A with
  | nil => intro x B _ u hu; cases hu
  | cons a as ih =>
    intro x B h u hu
    rw [List.cons_append, nodupPy, Bool.and_eq_true] at h
    rcases List.mem_cons.mp hu with rfl | hu
    · have := h.1
      rw [List.all_eq_true] at this
      have hx := this x (by simp)
      simpa using hx
    · exact ih x B h.2 u hu

theorem mem_pushesL_of (l : List Subtask)
    (H : ∀ s ∈ l, ∀ p pv, pv ∈ pushesS p s → ∃ t, pv = p ++ t) :
    ∀ (p : Path) (k : Nat) (pv : Path), pv ∈ pushesL p k l → ∃ j t, pv = p ++ j :: t := by
  induction l with
  | nil => intro p k pv hm; cases hm
  | cons c cs ih =>
    intro p k pv hm
    rw [pushesL] at hm
    rcases List.mem_append.mp hm with hm | hm
    · obtain ⟨t, ht⟩ := H c (by simp) (p ++ [k]) pv hm
      exact ⟨k, t, by simp [ht]⟩
    · exact ih (fun s hs => H s (by simp [hs])) p (k + 1) pv hm

theorem mem_pushesS_ext : ∀ (s : Subtask) (p pv : Path),
    pv ∈ pushesS p s → ∃ t, pv = p ++ t := by
  refine Subtask.strongInd (fun s ihs => ?_)
  cases s with
  | mk f os =>
    intro p pv hm
    cases os with
    | none =>
      by_cases h : f.has_subtasks = true
      · simp [pushesS, h] at hm
        exact ⟨[], by simp [hm]⟩
      · rw [pushesS_unflagged p f none (by simpa using h)] at hm
        cases hm
    | some l =>
      by_cases h : f.has_subtasks = true
      · rw [pushesS_flagged p f l h] at hm
        rcases List.mem_cons.mp hm with rfl | hm
        · exact ⟨[], by simp⟩
        · obtain ⟨j, t, ht⟩ := mem_pushesL_of l
            (fun s hs => ihs s (mem_size_lt hs)) p 0 pv hm
          exact ⟨j :: t, ht⟩
      · rw [pushesS_unflagged p f (some l) (by simpa using h)] at hm
        cases hm

theorem mem_pushesL_ext (l : List Subtask) (p : Path) (k : Nat) (pv : Path)
    (hm : pv ∈ pushesL p k l) : ∃ j t, pv = p ++ j :: t :=
  mem_pushesL_of l (fun s _ => mem_pushesS_ext s) p k pv hm

theorem hasAt_of_get (bt : BaseTask) (p : Path) (s : Subtask)
    (hne : p ≠ []) (hp : forestGet bt.subtasks p = some s) :
    bt.hasAt p = some s.fields.has_subtasks := by
  cases p with
  | nil => exact absurd rfl hne
  | cons j r => simp [BaseTask.hasAt, hp]

theorem subsAt_of_get (bt : BaseTask) (p : Path) (s : Subtask)
    (hne : p ≠ []) (hp : forestGet bt.subtasks p = some s) :
    bt.subsAt p = some s.subtasks := by
  cases p with
  | nil => exact absurd rfl hne
  | cons j r => simp [BaseTask.subsAt, hp]

theorem sizeOf_list_pos (l : List Subtask) : 0 < sizeOf l := by
  cases l <;> simp_arith

/-- Suffix simulation of the iterative loop of `BaseTask.update_estimated_minutes`:
if the loop stands on the first node of a fresh suffix `vs` of the children of the
pushed node at `q` (the earlier siblings `us'` already rolled up), then in some
number `m` of iterations it rolls up the whole suffix, returns to `q`, pops it,
records the post-order completion trace of the suffix and pushes every flagged
suffix node into `visited` — whatever fuel `n` is left afterwards. -/
theorem suf : ∀ (N : Nat) (vs : List Subtask), sizeOf vs ≤ N →
    ∀ (T : BaseTask) (q : Path) (us' : List Subtask) (st0 V tr : List Path),
    ValidQ T q → swfL vs = true → distL vs = true →
    nodupPy (us' ++ rollupL vs) = true →
    (∀ pv ∈ V, ∀ j, us'.length ≤ j → ∀ t, pv ≠ q ++ j :: t) →
    vs ≠ [] →
    ∃ m, ∀ n,
      runLoop (m + n) ⟨T.withSubsAt q (us' ++ vs), q ++ [us'.length], q :: st0, V, tr⟩
        = runLoop n ⟨T.withSubsAt q (us' ++ rollupL vs), q, st0,
            (pushesL q us'.length vs).reverse ++ V, tr ++ postL q us'.length vs⟩ := by
  intro N
  induction N with
  | zero =>
    intro vs hsz
    exact absurd hsz (by have := sizeOf_list_pos vs; omega)
  | succ N ihN =>
    intro vs hsz T q us' st0 V tr hv hwf hdist hnd hV hne
    cases vs with
    | nil => exact absurd rfl hne
    | cons c vs' =>
    cases c with
    | mk fc osc =>
    rw [swfL, Bool.and_eq_true] at hwf
    rw [distL, Bool.and_eq_true] at hdist
    rw [rollupL_cons] at hnd
    have hp0 : (T.withSubsAt q (us' ++ Subtask.mk fc osc :: vs')).subsAt q
        = some (some (us' ++ Subtask.mk fc osc :: vs')) := withSubs_subsAt T q _ hv
    have hget : forestGet (T.withSubsAt q (us' ++ Subtask.mk fc osc :: vs')).subtasks
        (q ++ [us'.length]) = some (Subtask.mk fc osc) := by
      rw [withSubs_get_inside T q (us' ++ Subtask.mk fc osc :: vs') us'.length [] hv,
        getElem_append_cons]
      simp [getAt_nil]
    cases hf : fc.has_subtasks with
    | false =>
      have hrollc : rollup (Subtask.mk fc osc) = Subtask.mk fc osc := rollup_unflagged fc osc hf
      rw [hrollc] at hnd
      have hA : ∀ u ∈ us', pyEq u (Subtask.mk fc osc) = false :=
        nodup_before us' (Subtask.mk fc osc) (rollupL vs') hnd
      have hhasA : (T.withSubsAt q (us' ++ Subtask.mk fc osc :: vs')).hasAt (q ++ [us'.length])
          = some false := by
        have h1 := hasAt_of_get (T.withSubsAt q (us' ++ Subtask.mk fc osc :: vs'))
          (q ++ [us'.length]) (Subtask.mk fc osc) (by simp) hget
        rw [h1]
        simp [Subtask.fields, hf]
      have hsubsA : (T.withSubsAt q (us' ++ Subtask.mk fc osc :: vs')).subsAt (q ++ [us'.length])
          = some osc := by
        have h1 := subsAt_of_get (T.withSubsAt q (us' ++ Subtask.mk fc osc :: vs'))
          (q ++ [us'.length]) (Subtask.mk fc osc) (by simp) hget
        rw [h1]
        simp [Subtask.subtasks]
      have hstepA0 : step ⟨T.withSubsAt q (us' ++ Subtask.mk fc osc :: vs'),
            q ++ [us'.length], q :: st0, V, tr⟩
          = contStep (T.withSubsAt q (us' ++ Subtask.mk fc osc :: vs')) (q :: st0) V
            (tr ++ [q ++ [us'.length]]) (q ++ [us'.length]) :=
        step_leaf _ osc hhasA hsubsA
      have hfind : (us' ++ Subtask.mk fc osc :: vs').findIdx
          (fun x => pyEq x (Subtask.mk fc osc)) = us'.length :=
        findIdx_middle us' (Subtask.mk fc osc) vs' hA
      have hlen : us'.length < (us' ++ Subtask.mk fc osc :: vs').length := by simp
      have hstepA := hstepA0.trans
        (contStep_move (T.withSubsAt q (us' ++ Subtask.mk fc osc :: vs')) q st0 V
          (tr ++ [q ++ [us'.length]]) (q ++ [us'.length])
          (us' ++ Subtask.mk fc osc :: vs') (Subtask.mk fc osc) hp0 hget us'.length hfind hlen)
      cases vs' with
      | nil =>
        have hc : ¬ (us'.length + 1 < (us' ++ [Subtask.mk fc osc]).length) := by simp
        rw [if_neg hc] at hstepA
        refine ⟨1, fun n => ?_⟩
        rw [Nat.add_comm 1 n]
        rw [runLoop_next n _ _ hstepA]
        congr 1
        simp [rollupL, rollup_unflagged, pushesL, pushesS_unflagged, postL, postS_unflagged,
          hf, LoopState.mk.injEq, List.append_assoc]
      | cons v0 vs'' =>
        have hc : us'.length + 1 < (us' ++ Subtask.mk fc osc :: v0 :: vs'').length := by
          simp only [List.length_append, List.length_cons]
          omega
        rw [if_pos hc] at hstepA
        have hszc : sizeOf (v0 :: vs'') ≤ N := by
          have h := hsz
          rw [List.cons.sizeOf_spec] at h
          omega
        have hndA : nodupPy ((us' ++ [Subtask.mk fc osc]) ++ rollupL (v0 :: vs'')) = true := by
          rw [List.append_assoc, List.singleton_append]
          exact hnd
        have hVA : ∀ pv ∈ V, ∀ j, (us' ++ [Subtask.mk fc osc]).length ≤ j → ∀ t,
            pv ≠ q ++ j :: t := by
          intro pv hpv j hj t
          refine hV pv hpv j ?_ t
          simp only [List.length_append, List.length_cons, List.length_nil] at hj
          omega
        obtain ⟨m2, hm2⟩ := ihN (v0 :: vs'') hszc T q (us' ++ [Subtask.mk fc osc]) st0 V
          (tr ++ [q ++ [us'.length]]) hv hwf.2 hdist.2 hndA hVA (by simp)
        simp only [List.append_assoc, List.singleton_append, List.length_append,
          List.length_cons, List.length_nil, Nat.zero_add] at hm2
        refine ⟨1 + m2, fun n => ?_⟩
        have hfuel : 1 + m2 + n = (m2 + n) + 1 := by omega
        rw [hfuel]
        rw [runLoop_next (m2 + n) _ _ hstepA]
        rw [hm2 n]
        congr 1
        simp [rollupL, rollup_unflagged, pushesL, pushesS_unflagged, postL, postS_unflagged,
          hf, LoopState.mk.injEq, List.append_assoc]
    | true =>
      cases osc with
      | none =>
        exact absurd hwf.1 (by simp [swfB, hf])
      | some lc =>
      cases lc with
      | nil =>
        exact absurd hwf.1 (by simp [swfB, hf])
      | cons l0 ls =>
      have hwfc : swfL (l0 :: ls) = true := by
        have h := hwf.1
        simp [swfB, hf] at h
        exact h
      have hdc : nodupPy (rollupL (l0 :: ls)) = true ∧ distL (l0 :: ls) = true := by
        have h := hdist.1
        rw [distB, Bool.and_eq_true] at h
        exact h
      have hnv : (q ++ [us'.length]) ∉ V := fun hmem =>
        hV (q ++ [us'.length]) hmem us'.length (le_refl us'.length) [] rfl
      have hhasB : (T.withSubsAt q (us' ++ Subtask.mk fc (some (l0 :: ls)) :: vs')).hasAt
          (q ++ [us'.length]) = some true := by
        have h1 := hasAt_of_get (T.withSubsAt q (us' ++ Subtask.mk fc (some (l0 :: ls)) :: vs'))
          (q ++ [us'.length]) (Subtask.mk fc (some (l0 :: ls))) (by simp) hget
        rw [h1]
        simp [Subtask.fields, hf]
      have hsubsB : (T.withSubsAt q (us' ++ Subtask.mk fc (some (l0 :: ls)) :: vs')).subsAt
          (q ++ [us'.length]) = some (some (l0 :: ls)) := by
        have h1 := subsAt_of_get (T.withSubsAt q (us' ++ Subtask.mk fc (some (l0 :: ls)) :: vs'))
          (q ++ [us'.length]) (Subtask.mk fc (some (l0 :: ls))) (by simp) hget
        rw [h1]
        simp [Subtask.subtasks]
      have hstepB1 : step ⟨T.withSubsAt q (us' ++ Subtask.mk fc (some (l0 :: ls)) :: vs'),
            q ++ [us'.length], q :: st0, V, tr⟩
          = .next ⟨T.withSubsAt q (us' ++ Subtask.mk fc (some (l0 :: ls)) :: vs'),
            (q ++ [us'.length]) ++ [0], (q ++ [us'.length]) :: q :: st0,
            (q ++ [us'.length]) :: V, tr⟩ :=
        step_arrive _ l0 ls hhasB hnv hsubsB
      have hvchild : ValidQ (T.withSubsAt q (us' ++ Subtask.mk fc (some (l0 :: ls)) :: vs'))
          (q ++ [us'.length]) :=
        validQ_withSubs_child T q (us' ++ Subtask.mk fc (some (l0 :: ls)) :: vs') us'.length
          (Subtask.mk fc (some (l0 :: ls))) hv
          (getElem_append_cons us' (Subtask.mk fc (some (l0 :: ls))) vs')
      have hszlc : sizeOf (l0 :: ls) ≤ N := by
        have h := hsz
        rw [List.cons.sizeOf_spec, Subtask.mk.sizeOf_spec, Option.some.sizeOf_spec] at h
        omega
      have hVchild : ∀ pv ∈ (q ++ [us'.length]) :: V, ∀ j, ([] : List Subtask).length ≤ j →
          ∀ t, pv ≠ (q ++ [us'.length]) ++ j :: t := by
        intro pv hpv j _ t heq
        rcases List.mem_cons.mp hpv with rfl | hpv
        · have h2 := congrArg List.length heq
          simp only [List.length_append, List.length_cons, List.length_nil] at h2
          omega
        · exact hV pv hpv us'.length (le_refl us'.length) (j :: t)
            (by rw [heq]; simp [List.append_assoc])
      obtain ⟨m2, hm2⟩ := ihN (l0 :: ls) hszlc
        (T.withSubsAt q (us' ++ Subtask.mk fc (some (l0 :: ls)) :: vs'))
        (q ++ [us'.length]) [] (q :: st0) ((q ++ [us'.length]) :: V) tr
        hvchild hwfc hdc.2 (by simpa using hdc.1) hVchild (by simp)
      simp only [List.nil_append, List.length_nil] at hm2
      rw [withSubs_nest T q us' fc (l0 :: ls) (l0 :: ls) vs'] at hm2
      rw [withSubs_nest T q us' fc (l0 :: ls) (rollupL (l0 :: ls)) vs'] at hm2
      have hinner : (Subtask.mk fc (some (rollupL (l0 :: ls)))).setEst
            (sumEst (rollupL (l0 :: ls)))
          = rollup (Subtask.mk fc (some (l0 :: ls))) := by
        rw [rollup_flagged fc (l0 :: ls) hf]
        rfl
      have hget2 : forestGet (T.withSubsAt q
            (us' ++ Subtask.mk fc (some (rollupL (l0 :: ls))) :: vs')).subtasks
          (q ++ [us'.length]) = some (Subtask.mk fc (some (rollupL (l0 :: ls)))) := by
        rw [withSubs_get_inside T q
          (us' ++ Subtask.mk fc (some (rollupL (l0 :: ls))) :: vs') us'.length [] hv,
          getElem_append_cons]
        simp [getAt_nil]
      have hhas2 : (T.withSubsAt q
            (us' ++ Subtask.mk fc (some (rollupL (l0 :: ls))) :: vs')).hasAt
          (q ++ [us'.length]) = some true := by
        have h1 := hasAt_of_get _ _ _ (show q ++ [us'.length] ≠ ([] : Path) by simp) hget2
        rw [h1]
        simp [Subtask.fields, hf]
      have hsubs2 : (T.withSubsAt q
            (us' ++ Subtask.mk fc (some (rollupL (l0 :: ls))) :: vs')).subsAt
          (q ++ [us'.length]) = some (some (rollupL (l0 :: ls))) := by
        have h1 := subsAt_of_get _ _ _ (show q ++ [us'.length] ≠ ([] : Path) by simp) hget2
        rw [h1]
        simp [Subtask.subtasks]
      have hvis2 : (q ++ [us'.length]) ∈ (pushesL (q ++ [us'.length]) 0 (l0 :: ls)).reverse
          ++ ((q ++ [us'.length]) :: V) := by simp
      have hstepB3 : step ⟨T.withSubsAt q
            (us' ++ Subtask.mk fc (some (rollupL (l0 :: ls))) :: vs'),
            q ++ [us'.length], q :: st0,
            (pushesL (q ++ [us'.length]) 0 (l0 :: ls)).reverse ++ ((q ++ [us'.length]) :: V),
            tr ++ postL (q ++ [us'.length]) 0 (l0 :: ls)⟩
          = contStep ((T.withSubsAt q
              (us' ++ Subtask.mk fc (some (rollupL (l0 :: ls))) :: vs')).setEstAt
              (q ++ [us'.length]) (sumEst (rollupL (l0 :: ls))))
            (q :: st0)
            ((pushesL (q ++ [us'.length]) 0 (l0 :: ls)).reverse ++ ((q ++ [us'.length]) :: V))
            ((tr ++ postL (q ++ [us'.length]) 0 (l0 :: ls)) ++ [q ++ [us'.length]])
            (q ++ [us'.length]) :=
        step_int _ (rollupL (l0 :: ls)) hhas2 hvis2 hsubs2
      rw [withSubs_setEst T q us' (Subtask.mk fc (some (rollupL (l0 :: ls)))) vs'
        (sumEst (rollupL (l0 :: ls))), hinner] at hstepB3
      have hp3 : (T.withSubsAt q
            (us' ++ rollup (Subtask.mk fc (some (l0 :: ls))) :: vs')).subsAt q
          = some (some (us' ++ rollup (Subtask.mk fc (some (l0 :: ls))) :: vs')) :=
        withSubs_subsAt T q _ hv
      have hget3 : forestGet (T.withSubsAt q
            (us' ++ rollup (Subtask.mk fc (some (l0 :: ls))) :: vs')).subtasks
          (q ++ [us'.length]) = some (rollup (Subtask.mk fc (some (l0 :: ls)))) := by
        rw [withSubs_get_inside T q
          (us' ++ rollup (Subtask.mk fc (some (l0 :: ls))) :: vs') us'.length [] hv,
          getElem_append_cons]
        simp [getAt_nil]
      have hA3 : ∀ u ∈ us', pyEq u (rollup (Subtask.mk fc (some (l0 :: ls)))) = false :=
        nodup_before us' (rollup (Subtask.mk fc (some (l0 :: ls)))) (rollupL vs') hnd
      have hfind3 : (us' ++ rollup (Subtask.mk fc (some (l0 :: ls))) :: vs').findIdx
          (fun x => pyEq x (rollup (Subtask.mk fc (some (l0 :: ls))))) = us'.length :=
        findIdx_middle us' (rollup (Subtask.mk fc (some (l0 :: ls)))) vs' hA3
      have hlen3 : us'.length
          < (us' ++ rollup (Subtask.mk fc (some (l0 :: ls))) :: vs').length := by simp
      have hcont3 := contStep_move
        (T.withSubsAt q (us' ++ rollup (Subtask.mk fc (some (l0 :: ls))) :: vs'))
        q st0
        ((pushesL (q ++ [us'.length]) 0 (l0 :: ls)).reverse ++ ((q ++ [us'.length]) :: V))
        ((tr ++ postL (q ++ [us'.length]) 0 (l0 :: ls)) ++ [q ++ [us'.length]])
        (q ++ [us'.length])
        (us' ++ rollup (Subtask.mk fc (some (l0 :: ls))) :: vs')
        (rollup (Subtask.mk fc (some (l0 :: ls)))) hp3 hget3 us'.length hfind3 hlen3
      cases vs' with
      | nil =>
        have hc : ¬ (us'.length + 1
            < (us' ++ [rollup (Subtask.mk fc (some (l0 :: ls)))]).length) := by simp
        rw [if_neg hc] at hcont3
        have hstepB3' := hstepB3.trans hcont3
        refine ⟨1 + m2 + 1, fun n => ?_⟩
        have hfuel : 1 + m2 + 1 + n = (m2 + (n + 1)) + 1 := by omega
        rw [hfuel]
        rw [runLoop_next (m2 + (n + 1)) _ _ hstepB1]
        rw [hm2 (n + 1)]
        rw [runLoop_next n _ _ hstepB3']
        congr 1
        simp [rollupL, rollup_flagged, pushesL, pushesS_flagged, postL, postS_flagged, hf,
          LoopState.mk.injEq, List.reverse_cons, List.reverse_append, List.append_assoc]
      | cons v0 vs'' =>
        have hc : us'.length + 1
            < (us' ++ rollup (Subtask.mk fc (some (l0 :: ls))) :: v0 :: vs'').length := by
          simp only [List.length_append, List.length_cons]
          omega
        rw [if_pos hc] at hcont3
        have hstepB3' := hstepB3.trans hcont3
        have hszt : sizeOf (v0 :: vs'') ≤ N := by
          have h := hsz
          rw [List.cons.sizeOf_spec] at h
          omega
        have hndt : nodupPy ((us' ++ [rollup (Subtask.mk fc (some (l0 :: ls)))])
            ++ rollupL (v0 :: vs'')) = true := by
          rw [List.append_assoc, List.singleton_append]
          exact hnd
        have hVt : ∀ pv ∈ (pushesL (q ++ [us'.length]) 0 (l0 :: ls)).reverse
              ++ ((q ++ [us'.length]) :: V),
            ∀ j, (us' ++ [rollup (Subtask.mk fc (some (l0 :: ls)))]).length ≤ j →
            ∀ t, pv ≠ q ++ j :: t := by
          intro pv hpv j hj t heq
          simp only [List.length_append, List.length_cons, List.length_nil,
            Nat.zero_add] at hj
          rcases List.mem_append.mp hpv with hpv | hpv
          · rw [List.mem_reverse] at hpv
            obtain ⟨j', t', ht'⟩ := mem_pushesL_ext (l0 :: ls) (q ++ [us'.length]) 0 pv hpv
            rw [ht', List.append_assoc] at heq
            have h2 := (List.append_right_inj q).mp heq
            simp only [List.singleton_append, List.cons.injEq] at h2
            obtain ⟨h3, -⟩ := h2
            omega
          · rcases List.mem_cons.mp hpv with rfl | hpv
            · have h2 := (List.append_right_inj q).mp heq
              simp only [List.cons.injEq] at h2
              obtain ⟨h3, -⟩ := h2
              omega
            · exact hV pv hpv j (by omega) t heq
        obtain ⟨m3, hm3⟩ := ihN (v0 :: vs'') hszt T q
          (us' ++ [rollup (Subtask.mk fc (some (l0 :: ls)))]) st0
          ((pushesL (q ++ [us'.length]) 0 (l0 :: ls)).reverse ++ ((q ++ [us'.length]) :: V))
          ((tr ++ postL (q ++ [us'.length]) 0 (l0 :: ls)) ++ [q ++ [us'.length]])
          hv hwf.2 hdist.2 hndt hVt (by simp)
        simp only [List.append_assoc, List.singleton_append, List.length_append,
          List.length_cons, List.length_nil, Nat.zero_add] at hm3
        refine ⟨1 + m2 + 1 + m3, fun n => ?_⟩
        have hfuel : 1 + m2 + 1 + m3 + n = (m2 + ((m3 + n) + 1)) + 1 := by omega
        rw [hfuel]
        rw [runLoop_next (m2 + ((m3 + n) + 1)) _ _ hstepB1]
        rw [hm2 ((m3 + n) + 1)]
        rw [runLoop_next (m3 + n) _ _ hstepB3']
        simp only [List.append_assoc]
        rw [hm3 n]
        congr 1
        simp [rollupL, rollup_flagged, pushesL, pushesS_flagged, postL, postS_flagged, hf,
          LoopState.mk.injEq, List.reverse_cons, List.reverse_append, List.append_assoc]

/-- The full run of `BaseTask.update_estimated_minutes` on a flag-consistent
tree with pairwise-distinct rolled-up siblings: with enough fuel it returns the
recursively rolled-up tree, that tree's root minutes, and the post-order
completion trace. -/
theorem update_em_complete (bt : BaseTask) (hwf : bwfB bt = true)
    (hdist : bdistB bt = true) :
    ∃ fuel, BaseTask.update_estimated_minutes fuel bt
      = some (bt.rollupB, bt.rollupB.fields.estimated_minutes, postPathsB bt) := by
  rw [bwfB, Bool.and_eq_true] at hwf
  rw [bdistB, Bool.and_eq_true] at hdist
  by_cases hflag : bt.fields.has_subtasks = true
  · have hne : bt.subtasks ≠ [] := by
      intro h0
      have h1 := hwf.1
      rw [if_pos hflag, h0] at h1
      simp at h1
    cases hsub : bt.subtasks with
    | nil => exact absurd hsub hne
    | cons c cs =>
      have hswf : swfL (c :: cs) = true := by rw [← hsub]; exact hwf.2
      have hdl : distL (c :: cs) = true := by rw [← hsub]; exact hdist.2
      have hnp : nodupPy ([] ++ rollupL (c :: cs)) = true := by
        rw [List.nil_append, ← hsub]
        exact hdist.1
      have hVroot : ∀ pv ∈ [([] : Path)], ∀ j, ([] : List Subtask).length ≤ j →
          ∀ t, pv ≠ [] ++ j :: t := by
        intro pv hpv j _ t heq
        rw [List.mem_singleton] at hpv
        subst hpv
        simp at heq
      obtain ⟨m, hm⟩ := suf (sizeOf (c :: cs)) (c :: cs) (le_refl _) bt [] [] [] [[]] []
        (Or.inl rfl) hswf hdl hnp hVroot (by simp)
      simp only [List.nil_append, List.length_nil] at hm
      simp only [← hsub, withSubs_nil] at hm
      have hhas1 : bt.hasAt [] = some true := by simp [BaseTask.hasAt, hflag]
      have hsubs1 : bt.subsAt [] = some (some (c :: cs)) := by simp [BaseTask.subsAt, hsub]
      have hstep1 : step ⟨bt, [], [], [], []⟩ = .next ⟨bt, [0], [[]], [[]], []⟩ :=
        step_arrive ⟨bt, [], [], [], []⟩ c cs hhas1 (by simp) hsubs1
      have hhasF : (bt.withSubsAt [] (rollupL bt.subtasks)).hasAt [] = some true := by
        simp [BaseTask.hasAt, BaseTask.withSubsAt, hflag]
      have hvisF : ([] : Path) ∈ (pushesL [] 0 bt.subtasks).reverse ++ [([] : Path)] := by simp
      have hsubsF : (bt.withSubsAt [] (rollupL bt.subtasks)).subsAt []
          = some (some (rollupL bt.subtasks)) := by
        simp [BaseTask.subsAt, BaseTask.withSubsAt]
      have hstepF : step ⟨bt.withSubsAt [] (rollupL bt.subtasks), [], [],
            (pushesL [] 0 bt.subtasks).reverse ++ [[]], postL [] 0 bt.subtasks⟩
          = .done ⟨(bt.withSubsAt [] (rollupL bt.subtasks)).setEstAt []
              (sumEst (rollupL bt.subtasks)), [], [],
              (pushesL [] 0 bt.subtasks).reverse ++ [[]],
              postL [] 0 bt.subtasks ++ [[]]⟩ :=
        (step_int _ (rollupL bt.subtasks) hhasF hvisF hsubsF).trans
          (contStep_done _ ((pushesL [] 0 bt.subtasks).reverse ++ [[]])
            (postL [] 0 bt.subtasks ++ [[]]) [])
      have hdone : runLoop 1 ⟨bt.withSubsAt [] (rollupL bt.subtasks), [], [],
            (pushesL [] 0 bt.subtasks).reverse ++ [[]], postL [] 0 bt.subtasks⟩
          = some ⟨(bt.withSubsAt [] (rollupL bt.subtasks)).setEstAt []
              (sumEst (rollupL bt.subtasks)), [], [],
              (pushesL [] 0 bt.subtasks).reverse ++ [[]],
              postL [] 0 bt.subtasks ++ [[]]⟩ :=
        runLoop_done 0 _ _ hstepF
      have hrootEq : (bt.withSubsAt [] (rollupL bt.subtasks)).setEstAt []
            (sumEst (rollupL bt.subtasks)) = bt.rollupB := by
        rw [BaseTask.rollupB, if_pos (And.intro hflag hne)]
        rfl
      refine ⟨1 + m + 1, ?_⟩
      rw [BaseTask.update_estimated_minutes, if_neg (by simp [hflag, hsub])]
      have hfuel : 1 + m + 1 = (m + 1) + 1 := by omega
      rw [hfuel]
      rw [runLoop_next (m + 1) _ _ hstep1]
      rw [hm 1]
      rw [hdone]
      rw [Option.map_some']
      refine congrArg some ?_
      show ((bt.withSubsAt [] (rollupL bt.subtasks)).setEstAt []
          (sumEst (rollupL bt.subtasks)),
        ((bt.withSubsAt [] (rollupL bt.subtasks)).setEstAt []
          (sumEst (rollupL bt.subtasks))).fields.estimated_minutes,
        postL [] 0 bt.subtasks ++ [[]])
        = (bt.rollupB, bt.rollupB.fields.estimated_minutes, postPathsB bt)
      rw [hrootEq, postPathsB, if_pos (And.intro hflag hne)]
  · have hf' : bt.fields.has_subtasks = false := by
      revert hflag
      cases bt.fields.has_subtasks <;> simp
    have hcnot : ¬(bt.fields.has_subtasks = true ∧ bt.subtasks ≠ []) := by
      simp [hf']
    refine ⟨0, ?_⟩
    rw [BaseTask.update_estimated_minutes, if_pos (Or.inl hf')]
    rw [BaseTask.rollupB, if_neg hcnot, postPathsB, if_neg hcnot]

theorem sumOkL_rollupL_of (l : List Subtask)
    (H : ∀ s ∈ l, swfB s = true → sumOkS (rollup s) = true) :
    swfL l = true → sumOkL (rollupL l) = true := by
  induction l with
  | nil => intro _; rfl
  | cons c cs ih =>
    intro h
    rw [swfL, Bool.and_eq_true] at h
    rw [rollupL_cons, sumOkL, Bool.and_eq_true]
    exact ⟨H c (by simp) h.1, ih (fun s hs => H s (by simp [hs])) h.2⟩

theorem sumOkS_rollup : ∀ s : Subtask, swfB s = true → sumOkS (rollup s) = true := by
  refine Subtask.strongInd (fun s ihs => ?_)
  cases s with
  | mk f os =>
    intro hs
    cases os with
    | none => rfl
    | some l =>
      cases hf : f.has_subtasks with
      | false =>
        cases l with
        | nil =>
          rw [rollup_unflagged f (some []) hf]
          simp [sumOkS, sumOkL, hf]
        | cons a as =>
          rw [swfB, hf] at hs
          simp at hs
      | true =>
        cases l with
        | nil =>
          rw [swfB, hf] at hs
          simp at hs
        | cons a as =>
          have h := hs
          simp [swfB, hf] at h
          rw [rollup_flagged f (a :: as) hf]
          simp only [sumOkS]
          rw [Bool.and_eq_true]
          refine ⟨by simp [hf], ?_⟩
          exact sumOkL_rollupL_of (a :: as) (fun s' hs' => ihs s' (mem_size_lt hs')) h

theorem bsumOk_rollupB (bt : BaseTask) (hwf : bwfB bt = true) : bsumOk bt.rollupB = true := by
  rw [bwfB, Bool.and_eq_true] at hwf
  by_cases hc : bt.fields.has_subtasks = true ∧ bt.subtasks ≠ []
  · rw [BaseTask.rollupB, if_pos hc, bsumOk, Bool.and_eq_true]
    constructor
    · simp [hc.1]
    · show sumOkL (rollupL bt.subtasks) = true
      exact sumOkL_rollupL_of bt.subtasks (fun s _ => sumOkS_rollup s) hwf.2
  · rw [BaseTask.rollupB, if_neg hc, bsumOk, Bool.and_eq_true]
    cases hflag : bt.fields.has_subtasks with
    | true =>
      exfalso
      apply hc
      refine ⟨hflag, ?_⟩
      intro h0
      have h1 := hwf.1
      rw [if_pos hflag, h0] at h1
      simp at h1
    | false =>
      have hnc : ¬(bt.fields.has_subtasks = true) := by simp [hflag]
      have h1 := hwf.1
      rw [if_neg hnc] at h1
      have h0 : bt.subtasks = [] := by
        cases h2 : bt.subtasks with
        | nil => rfl
        | cons a as => rw [h2] at h1; simp at h1
      constructor
      · simp [hflag]
      · rw [h0]; rfl

theorem leafValsL_rollupL_of (l : List Subtask)
    (H : ∀ s ∈ l, swfB s = true → leafValsS (rollup s) = leafValsS s) :
    swfL l = true → leafValsL (rollupL l) = leafValsL l := by
  induction l with
  | nil => intro _; rfl
  | cons c cs ih =>
    intro h
    rw [swfL, Bool.and_eq_true] at h
    simp only [rollupL_cons, leafValsL]
    rw [H c (by simp) h.1, ih (fun s hs => H s (by simp [hs])) h.2]

theorem leafValsS_rollup : ∀ s : Subtask, swfB s = true →
    leafValsS (rollup s) = leafValsS s := by
  refine Subtask.strongInd (fun s ihs => ?_)
  cases s with
  | mk f os =>
    intro hs
    cases os with
    | none => rfl
    | some l =>
      cases hf : f.has_subtasks with
      | false =>
        rw [rollup_unflagged f (some l) hf]
      | true =>
        cases l with
        | nil =>
          rw [swfB, hf] at hs
          simp at hs
        | cons a as =>
          have h := hs
          simp [swfB, hf] at h
          have hrec := leafValsL_rollupL_of (a :: as)
            (fun s' hs' => ihs s' (mem_size_lt hs')) h
          rw [rollup_flagged f (a :: as) hf]
          simp [leafValsS, hf, hrec]

theorem leafVals_rollupB (bt : BaseTask) (hwf : bwfB bt = true) :
    leafValsL bt.rollupB.subtasks = leafValsL bt.subtasks := by
  rw [bwfB, Bool.and_eq_true] at hwf
  by_cases hc : bt.fields.has_subtasks = true ∧ bt.subtasks ≠ []
  · rw [BaseTask.rollupB, if_pos hc]
    show leafValsL (rollupL bt.subtasks) = leafValsL bt.subtasks
    exact leafValsL_rollupL_of bt.subtasks (fun s _ => leafValsS_rollup s) hwf.2
  · rw [BaseTask.rollupB, if_neg hc]

theorem mem_postL_ge (l : List Subtask)
    (H : ∀ s ∈ l, ∀ p pv, pv ∈ postS p s → ∃ t, pv = p ++ t) :
    ∀ (p : Path) (k : Nat) (pv : Path), pv ∈ postL p k l →
      ∃ j t, k ≤ j ∧ pv = p ++ j :: t := by
  induction l with
  | nil => intro p k pv hm; cases hm
  | cons c cs ih =>
    intro p k pv hm
    rw [postL] at hm
    rcases List.mem_append.mp hm with hm | hm
    · obtain ⟨t, ht⟩ := H c (by simp) (p ++ [k]) pv hm
      exact ⟨k, t, le_refl k, by simp [ht]⟩
    · obtain ⟨j, t, hj, ht⟩ := ih (fun s hs => H s (by simp [hs])) p (k + 1) pv hm
      exact ⟨j, t, by omega, ht⟩

theorem mem_postS_ext : ∀ (s : Subtask) (p pv : Path), pv ∈ postS p s →
    ∃ t, pv = p ++ t := by
  refine Subtask.strongInd (fun s ihs => ?_)
  cases s with
  | mk f os =>
    intro p pv hm
    cases os with
    | none =>
      simp only [postS, List.mem_singleton] at hm
      exact ⟨[], by simp [hm]⟩
    | some l =>
      cases hf : f.has_subtasks with
      | false =>
        rw [postS_unflagged p f (some l) hf, List.mem_singleton] at hm
        exact ⟨[], by simp [hm]⟩
      | true =>
        rw [postS_flagged p f l hf, List.mem_append] at hm
        rcases hm with hm | hm
        · obtain ⟨j, t, _, ht⟩ := mem_postL_ge l
            (fun s' hs' => ihs s' (mem_size_lt hs')) p 0 pv hm
          exact ⟨j :: t, ht⟩
        · rw [List.mem_singleton] at hm
          exact ⟨[], by simp [hm]⟩

theorem mem_postL_ext2 (l : List Subtask) (p : Path) (k : Nat) (pv : Path)
    (hm : pv ∈ postL p k l) : ∃ j t, k ≤ j ∧ pv = p ++ j :: t :=
  mem_postL_ge l (fun s _ => mem_postS_ext s) p k pv hm

theorem nodup_postL_of (l : List Subtask) (H : ∀ s ∈ l, ∀ p, (postS p s).Nodup) :
    ∀ (p : Path) (k : Nat), (postL p k l).Nodup := by
  induction l with
  | nil => intro p k; simp [postL]
  | cons c cs ih =>
    intro p k
    rw [postL, List.nodup_append]
    refine ⟨H c (by simp) (p ++ [k]), ih (fun s hs => H s (by simp [hs])) p (k + 1), ?_⟩
    intro x hx hx'
    obtain ⟨t, ht⟩ := mem_postS_ext c (p ++ [k]) x hx
    obtain ⟨j, t', hj, ht'⟩ := mem_postL_ext2 cs p (k + 1) x hx'
    rw [ht] at ht'
    rw [List.append_assoc] at ht'
    have h2 := (List.append_right_inj p).mp ht'
    simp only [List.singleton_append, List.cons.injEq] at h2
    obtain ⟨h3, -⟩ := h2
    omega

theorem nodup_postS : ∀ (s : Subtask) (p : Path), (postS p s).Nodup := by
  refine Subtask.strongInd (fun s ihs => ?_)
  cases s with
  | mk f os =>
    intro p
    cases os with
    | none => simp [postS]
    | some l =>
      cases hf : f.has_subtasks with
      | false =>
        rw [postS_unflagged p f (some l) hf]
        simp
      | true =>
        rw [postS_flagged p f l hf, List.nodup_append]
        refine ⟨nodup_postL_of l (fun s' hs' => ihs s' (mem_size_lt hs')) p 0, by simp, ?_⟩
        intro x hx hx'
        rw [List.mem_singleton] at hx'
        obtain ⟨j, t, -, ht⟩ := mem_postL_ext2 l p 0 x hx
        rw [hx'] at ht
        have hlen := congrArg List.length ht
        simp only [List.length_append, List.length_cons] at hlen
        omega

theorem nodup_postPathsB (bt : BaseTask) : (postPathsB bt).Nodup := by
  rw [postPathsB]
  by_cases hc : bt.fields.has_subtasks = true ∧ bt.subtasks ≠ []
  · rw [if_pos hc, List.nodup_append]
    refine ⟨nodup_postL_of bt.subtasks (fun s _ => nodup_postS s) [] 0, by simp, ?_⟩
    intro x hx hx'
    rw [List.mem_singleton] at hx'
    subst hx'
    obtain ⟨j, t, -, ht⟩ := mem_postL_ext2 bt.subtasks [] 0 [] hx
    simp at ht
  · rw [if_neg hc]
    simp

theorem mem_postL_iff_of (l : List Subtask)
    (H : ∀ s ∈ l, swfB s = true →
      ∀ p pv, pv ∈ postS p s ↔ ∃ t, pv = p ++ t ∧ (s.getAt t).isSome = true) :
    swfL l = true → ∀ (p : Path) (k : Nat) (pv : Path),
      pv ∈ postL p k l
        ↔ ∃ j t, pv = p ++ (k + j) :: t
            ∧ (l[j]?.bind (fun c => c.getAt t)).isSome = true := by
  induction l with
  | nil =>
    intro _ p k pv
    simp [postL]
  | cons c cs ih =>
    intro hwl p k pv
    rw [swfL, Bool.and_eq_true] at hwl
    rw [postL, List.mem_append]
    rw [H c (by simp) hwl.1 (p ++ [k]) pv]
    rw [ih (fun s hs => H s (by simp [hs])) hwl.2 p (k + 1) pv]
    constructor
    · rintro (⟨t, ht, hsome⟩ | ⟨j, t, ht, hsome⟩)
      · refine ⟨0, t, ?_, ?_⟩
        · rw [ht]
          simp [List.append_assoc]
        · simpa using hsome
      · refine ⟨j + 1, t, ?_, ?_⟩
        · rw [ht, show k + 1 + j = k + (j + 1) from by omega]
        · simpa using hsome
    · rintro ⟨j, t, ht, hsome⟩
      cases j with
      | zero =>
        left
        refine ⟨t, ?_, ?_⟩
        · rw [ht]
          simp [List.append_assoc]
        · simpa using hsome
      | succ j =>
        right
        refine ⟨j, t, ?_, ?_⟩
        · rw [ht, show k + (j + 1) = k + 1 + j from by omega]
        · simpa using hsome

theorem mem_postS_iff : ∀ s : Subtask, swfB s = true → ∀ (p pv : Path),
    pv ∈ postS p s ↔ ∃ t, pv = p ++ t ∧ (s.getAt t).isSome = true := by
  refine Subtask.strongInd (fun s ihs => ?_)
  cases s with
  | mk f os =>
    intro hs p pv
    cases os with
    | none =>
      simp only [postS, List.mem_singleton]
      constructor
      · rintro rfl
        exact ⟨[], by simp, by simp [getAt_nil]⟩
      · rintro ⟨t, ht, hsome⟩
        cases t with
        | nil => simpa using ht
        | cons j r =>
          rw [show (Subtask.mk f none).getAt (j :: r) = none from rfl] at hsome
          simp at hsome
    | some l =>
      cases hf : f.has_subtasks with
      | false =>
        cases l with
        | cons a as =>
          rw [swfB, hf] at hs
          simp at hs
        | nil =>
          rw [postS_unflagged p f (some []) hf, List.mem_singleton]
          constructor
          · rintro rfl
            exact ⟨[], by simp, by simp [getAt_nil]⟩
          · rintro ⟨t, ht, hsome⟩
            cases t with
            | nil => simpa using ht
            | cons j r =>
              rw [getAt_cons] at hsome
              simp at hsome
      | true =>
        cases l with
        | nil =>
          rw [swfB, hf] at hs
          simp at hs
        | cons a as =>
          have hwl : swfL (a :: as) = true := by
            have h := hs
            simp [swfB, hf] at h
            exact h
          rw [postS_flagged p f (a :: as) hf, List.mem_append, List.mem_singleton]
          rw [mem_postL_iff_of (a :: as)
            (fun s' hs' => ihs s' (mem_size_lt hs')) hwl p 0 pv]
          constructor
          · rintro (⟨j, t, ht, hsome⟩ | rfl)
            · refine ⟨j :: t, ?_, ?_⟩
              · rw [ht]
                simp
              · rw [getAt_cons]
                exact hsome
            · exact ⟨[], by simp, by simp [getAt_nil]⟩
          · rintro ⟨t, ht, hsome⟩
            cases t with
            | nil =>
              right
              simpa using ht
            | cons j r =>
              left
              rw [getAt_cons] at hsome
              exact ⟨j, r, by rw [ht]; simp, hsome⟩

theorem mem_postPathsB (bt : BaseTask) (hwf : bwfB bt = true)
    (hflag : bt.fields.has_subtasks = true) :
    ∀ pv : Path, pv ∈ postPathsB bt
      ↔ (pv = [] ∨ (forestGet bt.subtasks pv).isSome = true) := by
  rw [bwfB, Bool.and_eq_true] at hwf
  have hne : bt.subtasks ≠ [] := by
    intro h0
    have h1 := hwf.1
    rw [if_pos hflag, h0] at h1
    simp at h1
  intro pv
  rw [postPathsB, if_pos (And.intro hflag hne), List.mem_append, List.mem_singleton]
  rw [mem_postL_iff_of bt.subtasks (fun s _ => mem_postS_iff s) hwf.2 [] 0 pv]
  constructor
  · rintro (⟨j, t, ht, hsome⟩ | rfl)
    · right
      rw [ht]
      simp only [List.nil_append, Nat.zero_add]
      rw [forestGet_cons]
      exact hsome
    · left
      rfl
  · rintro (rfl | hsome)
    · right
      rfl
    · left
      cases pv with
      | nil => simp [forestGet] at hsome
      | cons j t =>
        rw [forestGet_cons] at hsome
        exact ⟨j, t, by simp, hsome⟩

theorem iter_run : ∀ (k : Nat) (st st' : LoopState), iterSteps k st = some st' →
    ∀ n, runLoop (k + n) st = runLoop n st' := by
  intro k
  induction k with
  | zero =>
    intro st st' h n
    rw [iterSteps] at h
    injection h with h
    rw [Nat.zero_add, h]
  | succ k ih =>
    intro st st' h n
    rw [iterSteps] at h
    cases hs : step st with
    | next s1 =>
      rw [hs] at h
      have hn : (k + 1) + n = (k + n) + 1 := by omega
      rw [hn, runLoop_next (k + n) st s1 hs]
      exact ih s1 st' h n
    | done s1 =>
      rw [hs] at h
      exact Option.noConfusion h
    | crash =>
      rw [hs] at h
      exact Option.noConfusion h

theorem iter_none : ∀ (k : Nat) (st st' : LoopState), iterSteps k st = some st' →
    ∀ f, f ≤ k → runLoop f st = none := by
  intro k
  induction k with
  | zero =>
    intro st st' _ f hf
    have hf0 : f = 0 := by omega
    rw [hf0]
    rfl
  | succ k ih =>
    intro st st' h f hf
    rw [iterSteps] at h
    cases hs : step st with
    | next s1 =>
      rw [hs] at h
      cases f with
      | zero => rfl
      | succ f =>
        rw [runLoop_next f st s1 hs]
        exact ih s1 st' h f (by omega)
    | done s1 =>
      rw [hs] at h
      exact Option.noConfusion h
    | crash =>
      rw [hs] at h
      exact Option.noConfusion h

theorem exBad_cycle : ∀ tr : List Path,
    step ⟨exBadRolled, [1], [[]], [[1], [0], []], tr⟩
      = .next ⟨exBadRolled, [1], [[]], [[1], [0], []], tr ++ [[1]]⟩ := fun _ => rfl

theorem exBad_cycle_diverges : ∀ (n : Nat) (tr : List Path),
    runLoop n ⟨exBadRolled, [1], [[]], [[1], [0], []], tr⟩ = none := by
  intro n
  induction n with
  | zero => intro tr; rfl
  | succ n ih =>
    intro tr
    rw [runLoop_next n _ _ (exBad_cycle tr)]
    exact ih (tr ++ [[1]])

theorem exBad_seven : iterSteps 7 ⟨exBad, [], [], [], []⟩
    = some ⟨exBadRolled, [1], [[]], [[1], [0], []], [[0, 0], [0], [1, 0], [1]]⟩ := by
  decide

/-- Claim C1 as amended: on a tree satisfying invariant 1 (`bwfB`) whose
sibling lists are pairwise distinct after roll-up (`bdistB`),
`BaseTask.update_estimated_minutes` — given enough fuel for its unbounded
loop — succeeds and produces exactly the recursive bottom-up roll-up
`rollupB`: every flagged node's `estimated_minutes` becomes the sum of its
direct children's updated values (`bsumOk`), every leaf is unchanged as a
whole value (`leafValsL` preserved), and the returned value is the final
root's `estimated_minutes`.  The equivalence with the
`Task.update_total_minutes` / `Subtask.set_total_estimated_minutes` path
fails (that path is top-down), and without the distinctness hypothesis the
call can diverge. -/
theorem C1_update_amended (bt : BaseTask) (hwf : bwfB bt = true)
    (hdist : bdistB bt = true) :
    ∃ fuel tree ret trace,
      BaseTask.update_estimated_minutes fuel bt = some (tree, ret, trace)
      ∧ tree = bt.rollupB
      ∧ bsumOk tree = true
      ∧ leafValsL tree.subtasks = leafValsL bt.subtasks
      ∧ ret = tree.fields.estimated_minutes := by
  obtain ⟨fuel, hf⟩ := update_em_complete bt hwf hdist
  exact ⟨fuel, bt.rollupB, bt.rollupB.fields.estimated_minutes, postPathsB bt, hf, rfl,
    bsumOk_rollupB bt hwf, leafVals_rollupB bt hwf, rfl⟩

/-- Claim C1's amended theorem, instantiated at the concrete well-formed tree
`exGood` with both hypotheses discharged by evaluation. -/
theorem C1_update_amended_w : bwfB exGood = true ∧ bdistB exGood = true ∧
    (∃ fuel tree ret trace,
      BaseTask.update_estimated_minutes fuel exGood = some (tree, ret, trace)
      ∧ tree = exGood.rollupB
      ∧ bsumOk tree = true
      ∧ leafValsL tree.subtasks = leafValsL exGood.subtasks
      ∧ ret = tree.fields.estimated_minutes) :=
  ⟨by decide, by decide, C1_update_amended exGood (by decide) (by decide)⟩

/-- Claim C10 as amended: the distinctness that makes the iterative
traversal of `BaseTask.update_estimated_minutes` terminate and visit each
node exactly once is distinctness of the siblings *after* roll-up
(`bdistB`), not of the siblings as given.  Under `bwfB` and `bdistB`, on a
flagged root, the call terminates and its completion trace is `postPathsB`:
a duplicate-free list holding exactly the root and every descendant path of
the tree — each node is completed exactly once. -/
theorem C10_traversal_amended (bt : BaseTask) (hwf : bwfB bt = true)
    (hdist : bdistB bt = true) (hflag : bt.fields.has_subtasks = true) :
    ∃ fuel tree ret,
      BaseTask.update_estimated_minutes fuel bt = some (tree, ret, postPathsB bt)
      ∧ (postPathsB bt).Nodup
      ∧ (∀ pv : Path, pv ∈ postPathsB bt
          ↔ (pv = [] ∨ (forestGet bt.subtasks pv).isSome = true)) := by
  obtain ⟨fuel, hf⟩ := update_em_complete bt hwf hdist
  exact ⟨fuel, bt.rollupB, bt.rollupB.fields.estimated_minutes, hf,
    nodup_postPathsB bt, mem_postPathsB bt hwf hflag⟩

/-- Claim C10's amended theorem, instantiated at the concrete tree `exGood`
with the three hypotheses discharged by evaluation. -/
theorem C10_traversal_amended_w : bwfB exGood = true ∧ bdistB exGood = true ∧
    exGood.fields.has_subtasks = true ∧
    (∃ fuel tree ret,
      BaseTask.update_estimated_minutes fuel exGood = some (tree, ret, postPathsB exGood)
      ∧ (postPathsB exGood).Nodup
      ∧ (∀ pv : Path, pv ∈ postPathsB exGood
          ↔ (pv = [] ∨ (forestGet exGood.subtasks pv).isSome = true))) :=
  ⟨by decide, by decide, by decide,
    C10_traversal_amended exGood (by decide) (by decide) (by decide)⟩

/-- Claim C10, counterexample: the tree `exBad` satisfies the claim's own
hypothesis — every sibling list is pairwise distinct as given
(`borigDist`) — yet `BaseTask.update_estimated_minutes` diverges on it: once
both children of the root are recomputed to equal values,
`parent.subtasks.index(current)` (the `pyEq` scan) finds the first child
while the loop stands on the second, and the loop moves back to the second
child forever.  No fuel makes the call return. -/
theorem C10_index_diverges_cx : borigDist exBad = true ∧ updDiverges exBad := by
  refine ⟨by decide, ?_⟩
  intro fuel
  have hcond : ¬(exBad.fields.has_subtasks = false ∨ exBad.subtasks = []) := by decide
  rw [BaseTask.update_estimated_minutes, if_neg hcond]
  rcases Nat.le_total fuel 7 with hle | hle
  · rw [iter_none 7 _ _ exBad_seven fuel hle]
    rfl
  · obtain ⟨n, rfl⟩ : ∃ n, fuel = 7 + n := ⟨fuel - 7, by omega⟩
    rw [iter_run 7 _ _ exBad_seven n]
    rw [exBad_cycle_diverges n [[0, 0], [0], [1, 0], [1]]]
    rfl

end GGTDD
